import Mathlib

/-!
Verification model of the Tiered Commitment Tree (TCT).

The Rust sources present are `tct/src/eternity.rs`, `tct/src/internal/complete/node.rs`,
`tct/src/epoch/proof.rs`, `src/internal/active/tier.rs` and `stake/src/rate.rs`; those are
embedded definition-by-definition below.  The remaining internals of the crate
(`hash.rs`, `three.rs`, `path.rs`, the active node/leaf modules, the complete
tier/leaf modules and the proof verifier) are not among the sources and are
modelled from the specification where a definition notes so.

Representation choices:
* machine integers (`u16`, `u64`) are `Nat`, with `% 2 ^ 64` made explicit where
  Rust's wrapping arithmetic matters (the rate module);
* the write-once hash cache (`CachedHash`) is omitted: its documented invariant is
  that a populated cache always equals the recomputed hash, so it is
  observationally inert and every hash is recomputed here;
* the Rust source builds its 8-level tier types by type-level nesting
  (`N<N<N<N<N<N<N<N<L<Item>>>>>>>>>`); here the same shape is obtained by
  recursion on the height (`CTr`, `ATr`), and the three stacked tiers are three
  instantiations of the same generic definitions, exactly as the generic Rust
  code is instantiated at `Tier<Item>`, `Tier<Tier<Item>>` and
  `Tier<Tier<Tier<Item>>>`.
-/

namespace TCT

/-- A commitment is an opaque 32-byte field element in the source; it is modelled
as an opaque `Nat`. -/
abbrev Commitment := Nat

/-- Modelled from the spec: `hash.rs` is not among the sources.  Per the spec,
`Hash` is an opaque field element with a domain-separated constructor
`Hash::node(height, a, b, c, d)`, a leaf hash `Hash::of(item)`, and a fixed
constant `Hash::default()` that differs from every `node(...)` output.  The
ideal (collision-free) hash is the free algebra over these constructors. -/
inductive Hash : Type
  | default : Hash
  | ofItem : Commitment → Hash
  | node : Nat → Hash → Hash → Hash → Hash → Hash
deriving DecidableEq, Repr

/-- `Insert<T>`: either a kept (witnessed) subtree or an opaque hash stub. -/
inductive Insert (α : Type) : Type
  | keep : α → Insert α
  | hash : Hash → Insert α
deriving DecidableEq, Repr

/-- The hash of an `Insert` slot, given the hash function for kept values
(the `GetHash` impl for `Insert<T>`). -/
def Insert.hashWith (f : α → Hash) : Insert α → Hash
  | .keep x => f x
  | .hash h => h

/-- `Insert::map`. -/
def Insert.map (f : α → δ) : Insert α → Insert δ
  | .keep x => .keep (f x)
  | .hash h => .hash h

/-- Whether the slot keeps a witnessed subtree. -/
def Insert.isKeep : Insert α → Bool
  | .keep _ => true
  | .hash _ => false

/-- Modelled from the spec: `three.rs` is not among the sources.  `Three<T>` is a
buffer of zero to three elements. -/
inductive Three (α : Type) : Type
  | zero : Three α
  | one : α → Three α
  | two : α → α → Three α
  | three : α → α → α → Three α
deriving DecidableEq, Repr

/-- Modelled from the spec: `Three::push` succeeds, or returns the full 4-array
for promotion when the buffer already holds three elements. -/
def Three.push : Three α → α → Three α ⊕ (α × α × α × α)
  | .zero, x => .inl (.one x)
  | .one a, x => .inl (.two a x)
  | .two a b, x => .inl (.three a b x)
  | .three a b c, x => .inr (a, b, c, x)

/-- Modelled from the spec: `path.rs` is not among the sources.
`WhichWay::at(height, index)` consumes the two bits of `index` that select the
child of a node at `height`, returning the branch (0..3) and the residual
index. -/
def whichWayAt (height index : Nat) : Nat × Nat :=
  (index / 4 ^ (height - 1) % 4, index % 4 ^ (height - 1))

/-- A complete sparse tree of height `h` over leaves `γ` (`complete::Node`
levels over a complete leaf).  The `Children` storage of 1–4 slots becomes four
`Insert` slots; the structural exclusion of the all-`Hash` shape is the
invariant proved below rather than baked into the type, because
`fromChildrenOrElseHash` below is the only constructor the algorithms use,
exactly as in the source. -/
@[reducible] def CTr (γ : Type) : Nat → Type
  | 0 => γ
  | h + 1 => Insert (CTr γ h) × Insert (CTr γ h) × Insert (CTr γ h) × Insert (CTr γ h)

instance instDecidableEqCTr [DecidableEq γ] : {h : Nat} → DecidableEq (CTr γ h)
  | 0 => inferInstanceAs (DecidableEq γ)
  | h + 1 =>
      letI := instDecidableEqCTr (γ := γ) (h := h)
      inferInstanceAs (DecidableEq (Insert (CTr γ h) × Insert (CTr γ h) ×
        Insert (CTr γ h) × Insert (CTr γ h)))

/-- `Node::from_children_or_else_hash` (complete/node.rs, lines 68–82): if all
four children are hashes, collapse to `Insert::Hash(Hash::node(height, a, b, c, d))`;
otherwise construct the complete node.  `g` is the number of tree levels below
the leaves of this family (0 for the block tier, 8 for the epoch tier, 16 for
the eternity tier), so a node over height-`h` children has global height
`g + h + 1`. -/
def fromChildrenOrElseHash (g : Nat) {h : Nat} :
    Insert (CTr γ h) → Insert (CTr γ h) → Insert (CTr γ h) → Insert (CTr γ h) →
    Insert (CTr γ (h + 1))
  | .hash a, .hash b, .hash c, .hash d => .hash (Hash.node (g + h + 1) a b c d)
  | a, b, c, d => .keep (a, b, c, d)

/-- `Node::from_siblings_and_focus_or_else_hash` (complete/node.rs, lines 48–66):
push the focus into the siblings and pad missing children with the default
hash. -/
def fromSiblingsAndFocusOrElseHash (g : Nat) {h : Nat}
    (siblings : Three (Insert (CTr γ h))) (focus : Insert (CTr γ h)) :
    Insert (CTr γ (h + 1)) :=
  match siblings.push focus with
  | .inr (a, b, c, d) => fromChildrenOrElseHash g a b c d
  | .inl (.three a b c) => fromChildrenOrElseHash g a b c (.hash Hash.default)
  | .inl (.two a b) =>
      fromChildrenOrElseHash g a b (.hash Hash.default) (.hash Hash.default)
  | .inl (.one a) =>
      fromChildrenOrElseHash g a (.hash Hash.default) (.hash Hash.default)
        (.hash Hash.default)
  | .inl .zero =>
      fromChildrenOrElseHash g (.hash Hash.default) (.hash Hash.default)
        (.hash Hash.default) (.hash Hash.default)

/-- `GetHash for complete::Node` (complete/node.rs, lines 98–111): the node hash
is `Hash::node(height, a, b, c, d)` over the children's hashes.  `hγ` hashes a
leaf. -/
def CTr.hash (hγ : γ → Hash) (g : Nat) : {h : Nat} → CTr γ h → Hash
  | 0, x => hγ x
  | h + 1, (a, b, c, d) =>
      Hash.node (g + h + 1)
        (a.hashWith (CTr.hash hγ g)) (b.hashWith (CTr.hash hγ g))
        (c.hashWith (CTr.hash hγ g)) (d.hashWith (CTr.hash hγ g))

/-- `ForgetOwned for complete::Node` (complete/node.rs, lines 136–193): select
the child by the two relevant index bits, recurse if it is kept (a `Hash` child
means the witness is absent), and reassemble through
`fromChildrenOrElseHash`.  `fγ` forgets inside a leaf. -/
def CTr.forgetOwned (fγ : γ → Nat → Insert γ × Bool) (g : Nat) :
    {h : Nat} → CTr γ h → Nat → Insert (CTr γ h) × Bool
  | 0, x, index =>
      match fγ x index with
      | (.keep y, forgotten) => (.keep y, forgotten)
      | (.hash z, forgotten) => (.hash z, forgotten)
  | h + 1, (a, b, c, d), index =>
      match index / 4 ^ (g + h) % 4 with
      | 0 =>
        let r := match a with
          | .keep t => CTr.forgetOwned fγ g t (index % 4 ^ (g + h))
          | .hash x => ((Insert.hash x : Insert (CTr γ h)), false)
        (fromChildrenOrElseHash g r.1 b c d, r.2)
      | 1 =>
        let r := match b with
          | .keep t => CTr.forgetOwned fγ g t (index % 4 ^ (g + h))
          | .hash x => ((Insert.hash x : Insert (CTr γ h)), false)
        (fromChildrenOrElseHash g a r.1 c d, r.2)
      | 2 =>
        let r := match c with
          | .keep t => CTr.forgetOwned fγ g t (index % 4 ^ (g + h))
          | .hash x => ((Insert.hash x : Insert (CTr γ h)), false)
        (fromChildrenOrElseHash g a b r.1 d, r.2)
      | _ + 3 =>
        let r := match d with
          | .keep t => CTr.forgetOwned fγ g t (index % 4 ^ (g + h))
          | .hash x => ((Insert.hash x : Insert (CTr γ h)), false)
        (fromChildrenOrElseHash g a b c r.1, r.2)

/-- Three sibling hashes at one level of an authentication path, in
left-to-right order with the path's own branch omitted. -/
abbrev Sib3 := Hash × Hash × Hash

/-- `Witness for complete::Node` (complete/node.rs, lines 113–134): pick the
child indicated by the index, hash the three other siblings, recurse
(`child.keep()?.witness(index)?`), and prepend the sibling triple.  `wγ`
witnesses inside a leaf. -/
def CTr.witness (wγ : γ → Nat → Option (List Sib3 × Hash)) (hγ : γ → Hash) (g : Nat) :
    {h : Nat} → CTr γ h → Nat → Option (List Sib3 × Hash)
  | 0, x, index => wγ x index
  | h + 1, (a, b, c, d), index =>
      let ha := a.hashWith (CTr.hash hγ g)
      let hb := b.hashWith (CTr.hash hγ g)
      let hc := c.hashWith (CTr.hash hγ g)
      let hd := d.hashWith (CTr.hash hγ g)
      let rest := index % 4 ^ (g + h)
      match index / 4 ^ (g + h) % 4 with
      | 0 =>
        match a with
        | .keep t =>
            (CTr.witness wγ hγ g t rest).map (fun pl => ((hb, hc, hd) :: pl.1, pl.2))
        | .hash _ => none
      | 1 =>
        match b with
        | .keep t =>
            (CTr.witness wγ hγ g t rest).map (fun pl => ((ha, hc, hd) :: pl.1, pl.2))
        | .hash _ => none
      | 2 =>
        match c with
        | .keep t =>
            (CTr.witness wγ hγ g t rest).map (fun pl => ((ha, hb, hd) :: pl.1, pl.2))
        | .hash _ => none
      | _ + 3 =>
        match d with
        | .keep t =>
            (CTr.witness wγ hγ g t rest).map (fun pl => ((ha, hb, hc) :: pl.1, pl.2))
        | .hash _ => none

/-- Validity of an `Insert` slot with respect to a validity predicate on kept
subtrees. -/
def Insert.validWith (v : α → Bool) : Insert α → Bool
  | .keep x => v x
  | .hash _ => true

/-- The structural invariant of complete trees: every internal node keeps at
least one child (`Children` stores at least one `Keep`), recursively, and every
leaf satisfies `vγ`. -/
def CTr.validb (vγ : γ → Bool) : {h : Nat} → CTr γ h → Bool
  | 0, x => vγ x
  | h + 1, (a, b, c, d) =>
      (a.isKeep || b.isKeep || c.isKeep || d.isKeep) &&
      a.validWith (CTr.validb vγ (h := h)) && b.validWith (CTr.validb vγ) &&
      c.validWith (CTr.validb vγ) && d.validWith (CTr.validb vγ)

/-- Whether the top node of a complete tree has at least one kept child. -/
def CTr.topHasKeep {h : Nat} : CTr γ (h + 1) → Bool
  | (a, b, c, d) => a.isKeep || b.isKeep || c.isKeep || d.isKeep

/-- An active (frontier) tree of height `h`: each level is up to three completed
left siblings (`Three<Insert<Child::Complete>>`) plus the mutable focus child;
the level-0 leaf holds a value of the active leaf type `β` (for a tier over
items, `β = Insert Item`, per the spec's `Leaf(Insert<Item>)`).  This is the
`active::Node`/`active::Leaf` nesting; those modules are not among the sources,
so the operations on `ATr` other than those delegated to `complete::Node` are
modelled from the spec (§4.2, §4.5, §4.6, §4.7). -/
@[reducible] def ATr (β γ : Type) : Nat → Type
  | 0 => β
  | h + 1 => Three (Insert (CTr γ h)) × ATr β γ h

/-- Modelled from the spec: `Active::singleton` builds a fresh active spine from
leaf to root containing only `x`. -/
def ATr.singleton (x : β) : (h : Nat) → ATr β γ h
  | 0 => x
  | h + 1 => (.zero, ATr.singleton x h)

/-- Modelled from the spec (§4.2 insertion algorithm): `insert` delegates to the
focus child; when the child reports `Full`, push its completed form into the
siblings; if the siblings buffer was full, complete this node through
`fromChildrenOrElseHash` and propagate `Full { complete, item }` upward.  The
active leaf is always occupied, so inserting at height 0 reports `Full` with
the finalized leaf (`finβ`).  `.inl` is `Ok(self')`, `.inr` is
`Err(Full { complete, item })`. -/
def ATr.insert (finβ : β → Insert γ) (g : Nat) :
    {h : Nat} → ATr β γ h → β → ATr β γ h ⊕ (Insert (CTr γ h) × β)
  | 0, y, x => .inr ((finβ y : Insert (CTr γ 0)), x)
  | h + 1, (sibs, focus), x =>
      match ATr.insert finβ g focus x with
      | .inl focus2 => .inl (sibs, focus2)
      | .inr (completed, item) =>
        match sibs.push completed with
        | .inl sibs2 => .inl (sibs2, ATr.singleton item h)
        | .inr (a, b, c, d) => .inr (fromChildrenOrElseHash g a b c d, item)

/-- Modelled from the spec: `Active::finalize` promotes the active subtree to a
complete subtree (or a hash when no witness survives), padding absent children
with the default hash via `from_siblings_and_focus_or_else_hash` (which is in
complete/node.rs). -/
def ATr.finalize (finβ : β → Insert γ) (g : Nat) :
    {h : Nat} → ATr β γ h → Insert (CTr γ h)
  | 0, y => (finβ y : Insert (CTr γ 0))
  | _ + 1, (sibs, focus) =>
      fromSiblingsAndFocusOrElseHash g sibs (ATr.finalize finβ g focus)

/-- Modelled from the spec (§4.1): the hash of an active node is the node hash
of its children's hashes, with empty child positions contributing
`Hash::default()`; the children are the siblings, then the focus. -/
def ATr.hash (hβ : β → Hash) (hγ : γ → Hash) (g : Nat) :
    {h : Nat} → ATr β γ h → Hash
  | 0, y => hβ y
  | h + 1, (sibs, focus) =>
      let f := ATr.hash hβ hγ g focus
      match sibs with
      | .zero => Hash.node (g + h + 1) f Hash.default Hash.default Hash.default
      | .one a =>
          Hash.node (g + h + 1) (a.hashWith (CTr.hash hγ g)) f Hash.default
            Hash.default
      | .two a b =>
          Hash.node (g + h + 1) (a.hashWith (CTr.hash hγ g))
            (b.hashWith (CTr.hash hγ g)) f Hash.default
      | .three a b c =>
          Hash.node (g + h + 1) (a.hashWith (CTr.hash hγ g))
            (b.hashWith (CTr.hash hγ g)) (c.hashWith (CTr.hash hγ g)) f

/-- Forget one completed sibling slot in place (a kept sibling delegates to
`ForgetOwned`, which is in complete/node.rs; a hash stub means the witness is
absent). -/
def siblingForget (fγ : γ → Nat → Insert γ × Bool) (g : Nat) {h : Nat}
    (rest : Nat) : Insert (CTr γ h) → Insert (CTr γ h) × Bool
  | .keep t => CTr.forgetOwned fγ g t rest
  | .hash x => (.hash x, false)

/-- Modelled from the spec (§4.2, §4.5): structural forgetting on the active
frontier.  The two relevant index bits select a child position: positions
holding completed siblings delegate to `ForgetOwned`; the position right after
the siblings is the focus, which recurses actively; later positions are empty,
so nothing is forgotten.  The leaf delegates to `fβ`. -/
def ATr.forget (fβ : β → Nat → β × Bool) (fγ : γ → Nat → Insert γ × Bool) (g : Nat) :
    {h : Nat} → ATr β γ h → Nat → ATr β γ h × Bool
  | 0, y, index => let r := fβ y index; (r.1, r.2)
  | h + 1, (sibs, focus), index =>
      let rest := index % 4 ^ (g + h)
      match sibs, index / 4 ^ (g + h) % 4 with
      | .zero, 0 =>
          let r := ATr.forget fβ fγ g focus rest
          ((.zero, r.1), r.2)
      | .zero, _ + 1 => ((sibs, focus), false)
      | .one a, 0 =>
          let r := siblingForget fγ g rest a
          ((.one r.1, focus), r.2)
      | .one a, 1 =>
          let r := ATr.forget fβ fγ g focus rest
          ((.one a, r.1), r.2)
      | .one _, _ + 2 => ((sibs, focus), false)
      | .two a b, 0 =>
          let r := siblingForget fγ g rest a
          ((.two r.1 b, focus), r.2)
      | .two a b, 1 =>
          let r := siblingForget fγ g rest b
          ((.two a r.1, focus), r.2)
      | .two a b, 2 =>
          let r := ATr.forget fβ fγ g focus rest
          ((.two a b, r.1), r.2)
      | .two _ _, _ + 3 => ((sibs, focus), false)
      | .three a b c, 0 =>
          let r := siblingForget fγ g rest a
          ((.three r.1 b c, focus), r.2)
      | .three a b c, 1 =>
          let r := siblingForget fγ g rest b
          ((.three a r.1 c, focus), r.2)
      | .three a b c, 2 =>
          let r := siblingForget fγ g rest c
          ((.three a b r.1, focus), r.2)
      | .three a b c, _ + 3 =>
          let r := ATr.forget fβ fγ g focus rest
          ((.three a b c, r.1), r.2)

/-- Witness one completed sibling slot (a kept sibling delegates to the
complete `Witness`, which is in complete/node.rs). -/
def siblingWitness (wγ : γ → Nat → Option (List Sib3 × Hash)) (hγ : γ → Hash)
    (g : Nat) {h : Nat} (rest : Nat) :
    Insert (CTr γ h) → Option (List Sib3 × Hash)
  | .keep t => CTr.witness wγ hγ g t rest
  | .hash _ => none

/-- Modelled from the spec (§4.6): witnessing on the active frontier.  The two
relevant index bits select a child position among the siblings, the focus, and
the empty (default-hash) positions; the three other positions are observed as
hashes, in left-to-right order. -/
def ATr.witness (wβ : β → Nat → Option (List Sib3 × Hash)) (hβ : β → Hash)
    (wγ : γ → Nat → Option (List Sib3 × Hash)) (hγ : γ → Hash) (g : Nat) :
    {h : Nat} → ATr β γ h → Nat → Option (List Sib3 × Hash)
  | 0, y, index => wβ y index
  | h + 1, (sibs, focus), index =>
      let rest := index % 4 ^ (g + h)
      let f := ATr.hash hβ hγ g focus
      let hc : Insert (CTr γ h) → Hash := Insert.hashWith (CTr.hash hγ g)
      let d0 := Hash.default
      let goF := fun (s1 s2 s3 : Hash) =>
        (ATr.witness wβ hβ wγ hγ g focus rest).map
          (fun pl => ((s1, s2, s3) :: pl.1, pl.2))
      let goS := fun (s : Insert (CTr γ h)) (s1 s2 s3 : Hash) =>
        (siblingWitness wγ hγ g rest s).map (fun pl => ((s1, s2, s3) :: pl.1, pl.2))
      match sibs, index / 4 ^ (g + h) % 4 with
      | .zero, 0 => goF d0 d0 d0
      | .zero, _ + 1 => none
      | .one a, 0 => goS a f d0 d0
      | .one a, 1 => goF (hc a) d0 d0
      | .one _, _ + 2 => none
      | .two a b, 0 => goS a (hc b) f d0
      | .two a b, 1 => goS b (hc a) f d0
      | .two a b, 2 => goF (hc a) (hc b) d0
      | .two _ _, _ + 3 => none
      | .three a b c, 0 => goS a (hc b) (hc c) f
      | .three a b c, 1 => goS b (hc a) (hc c) f
      | .three a b c, 2 => goS c (hc a) (hc b) f
      | .three a b c, _ + 3 => goF (hc a) (hc b) (hc c)

/-- All elements of a sibling buffer satisfy `v`. -/
def threeAll (v : α → Bool) : Three α → Bool
  | .zero => true
  | .one a => v a
  | .two a b => v a && v b
  | .three a b c => v a && v b && v c

/-- Validity of an active tree: completed siblings satisfy the complete-tree
invariant, and the leaf satisfies `vβ`. -/
def ATr.validb (vβ : β → Bool) (vγ : γ → Bool) : {h : Nat} → ATr β γ h → Bool
  | 0, y => vβ y
  | h + 1, (sibs, focus) =>
      threeAll (Insert.validWith (CTr.validb vγ (h := h))) sibs &&
      ATr.validb vβ vγ focus

/-- The per-item operations a tier needs, bundling the active-leaf (`I`) and
complete-leaf (`C`) behaviour of the item type it stores.  `g` is the number of
tree levels beneath this tier's own leaves. -/
structure Ops (ι γ : Type) where
  g : Nat
  hashI : ι → Hash
  finalizeI : ι → Insert γ
  forgetI : ι → Nat → Insert ι × Bool
  witnessI : ι → Nat → Option (List Sib3 × Hash)
  hashC : γ → Hash
  forgetC : γ → Nat → Insert γ × Bool
  witnessC : γ → Nat → Option (List Sib3 × Hash)

/-- The active-leaf hash: a kept item hashes via the item, a stub is its hash. -/
def Ops.hashB (o : Ops ι γ) : Insert ι → Hash :=
  Insert.hashWith o.hashI

/-- The active-leaf finalizer: `Keep` finalizes the item, `Hash` stays a hash. -/
def Ops.finB (o : Ops ι γ) : Insert ι → Insert γ
  | .keep x => o.finalizeI x
  | .hash h => .hash h

/-- The active-leaf forgetter: forgetting under a hash stub finds nothing. -/
def Ops.forgetB (o : Ops ι γ) : Insert ι → Nat → Insert ι × Bool
  | .keep x, i => o.forgetI x i
  | .hash h, _ => (.hash h, false)

/-- The active-leaf witnesser: a hash stub witnesses nothing. -/
def Ops.witnessB (o : Ops ι γ) : Insert ι → Nat → Option (List Sib3 × Hash)
  | .keep x, i => o.witnessI x i
  | .hash _, _ => none

/-- `Inner` (active/tier.rs, lines 30–42): the state of a tier: still active
(possibly empty), completed with witnesses, or collapsed to a single hash. -/
inductive Inner (ι γ : Type) : Type
  | active : Option (ATr (Insert ι) γ 8) → Inner ι γ
  | complete : CTr γ 8 → Inner ι γ
  | hash : Hash → Inner ι γ

/-- `Tier` (active/tier.rs, lines 14–18): the insertion counters and the inner
state.  (`len` and `witnessed` are `u16` in the source; all reachable values
stay below `2 ^ 16`.) -/
structure Tier (ι γ : Type) where
  len : Nat
  witnessed : Nat
  inner : Inner ι γ

/-- `Tier::new`/`Default` (active/tier.rs, lines 104–114): counters at zero and
an empty active tree. -/
def Tier.new : Tier ι γ := ⟨0, 0, .active none⟩

/-- `Tier::insert` (active/tier.rs, lines 119–149): a `Complete` or `Hash` tier
returns the item unconsumed; an empty active tier becomes a singleton; an
occupied active tier delegates to the nested insert and, on `Full`, stores the
completed tree (or its hash) and returns the item unconsumed.  The returned
`Option` is the `Err` payload.  (Note: the source updates neither `len` nor
`witnessed` here.) -/
def Tier.insert (o : Ops ι γ) (t : Tier ι γ) (item : Insert ι) :
    Tier ι γ × Option (Insert ι) :=
  match t.inner with
  | .complete _ => (t, some item)
  | .hash _ => (t, some item)
  | .active none =>
      ({ t with inner := .active (some (ATr.singleton item 8)) }, none)
  | .active (some a) =>
      match ATr.insert o.finB o.g a item with
      | .inl a2 => ({ t with inner := .active (some a2) }, none)
      | .inr (completed, item) =>
          ({ t with inner := match completed with
              | .keep c => Inner.complete c
              | .hash x => Inner.hash x }, some item)

/-- `GetHash for Tier` (active/tier.rs, lines 202–228): an empty active tier
hashes to `Hash::default()`; otherwise the inner tree's hash. -/
def Tier.hash (o : Ops ι γ) (t : Tier ι γ) : Hash :=
  match t.inner with
  | .active none => Hash.default
  | .active (some a) => ATr.hash o.hashB o.hashC o.g a
  | .complete c => CTr.hash o.hashC o.g c
  | .hash x => x

/-- `Focus for Tier`/`finalize` (active/tier.rs, lines 230–249): an empty
active tier finalizes to `Hash(Hash::default())`; an occupied one finalizes its
tree; a complete tier is kept; a hash tier stays a hash.  (The
`complete::Tier` newtype around the nested tree is collapsed.) -/
def Tier.finalize (o : Ops ι γ) (t : Tier ι γ) : Insert (CTr γ 8) :=
  match t.inner with
  | .active none => .hash Hash.default
  | .active (some a) => ATr.finalize o.finB o.g a
  | .complete c => .keep c
  | .hash x => .hash x

/-- `Tier::is_empty` (active/tier.rs, lines 189–195). -/
def Tier.isEmpty (t : Tier ι γ) : Bool :=
  match t.inner with
  | .active none => true
  | .active (some _) => false
  | _ => false

/-- Modelled from the spec (§4.5): `Forget for Tier` delegates into the active
tree or the complete tree; a collapsed or empty tier has no witness to forget.
A complete tree that loses its last witness collapses the tier to `Hash`. -/
def Tier.forget (o : Ops ι γ) (t : Tier ι γ) (index : Nat) : Tier ι γ × Bool :=
  match t.inner with
  | .active none => (t, false)
  | .active (some a) =>
      let r := ATr.forget (o.forgetB) o.forgetC o.g a index
      ({ t with inner := .active (some r.1) }, r.2)
  | .complete c =>
      let r := CTr.forgetOwned o.forgetC o.g c index
      ({ t with inner := match r.1 with
          | .keep c2 => Inner.complete c2
          | .hash x => Inner.hash x }, r.2)
  | .hash _ => (t, false)

/-- Modelled from the spec (§4.6): `Witness for Tier` delegates into the active
or complete tree; a collapsed or empty tier witnesses nothing. -/
def Tier.witness (o : Ops ι γ) (t : Tier ι γ) (index : Nat) :
    Option (List Sib3 × Hash) :=
  match t.inner with
  | .active none => none
  | .active (some a) => ATr.witness (o.witnessB) o.hashB o.witnessC o.hashC o.g a index
  | .complete c => CTr.witness o.witnessC o.hashC o.g c index
  | .hash _ => none

/-- Validity of a tier: its trees satisfy the complete-tree invariant, with
item validity `vι` below. -/
def Tier.validb (vι : ι → Bool) (vγ : γ → Bool) (t : Tier ι γ) : Bool :=
  match t.inner with
  | .active none => true
  | .active (some a) => ATr.validb (Insert.validWith vι) vγ a
  | .complete c => CTr.validb vγ c
  | .hash _ => true

/-- The item tier's operations: the item (`Item`) is a commitment whose hash is
`Hash::of(item)`; finalizing keeps it, forgetting replaces it by its hash
(spec §4.5 step 3), and witnessing returns the empty path with the leaf
hash. -/
def ops0 : Ops Commitment Commitment where
  g := 0
  hashI := Hash.ofItem
  finalizeI := fun c => .keep c
  forgetI := fun c _ => (.hash (Hash.ofItem c), true)
  witnessI := fun c _ => some ([], Hash.ofItem c)
  hashC := Hash.ofItem
  forgetC := fun c _ => (.hash (Hash.ofItem c), true)
  witnessC := fun c _ => some ([], Hash.ofItem c)

/-- The innermost tier: `Tier<Item>` (a block). -/
abbrev TierB := Tier Commitment Commitment

/-- A complete block: `complete::Tier<Item>` (newtype collapsed to its nested
tree). -/
abbrev CompleteB := CTr Commitment 8

/-- The block-as-item operations for the epoch tier: an active block leaf uses
the tier operations (active/tier.rs), a complete block leaf delegates to the
complete tree at `g = 0`. -/
def ops1 : Ops TierB CompleteB where
  g := 8
  hashI := Tier.hash ops0
  finalizeI := Tier.finalize ops0
  forgetI := fun t i => let r := Tier.forget ops0 t i; (.keep r.1, r.2)
  witnessI := Tier.witness ops0
  hashC := CTr.hash ops0.hashC 0
  forgetC := CTr.forgetOwned ops0.forgetC 0
  witnessC := CTr.witness ops0.witnessC ops0.hashC 0

/-- The middle tier: `Tier<Tier<Item>>` (an epoch). -/
abbrev TierE := Tier TierB CompleteB

/-- A complete epoch. -/
abbrev CompleteE := CTr CompleteB 8

/-- The epoch-as-item operations for the eternity tier. -/
def ops2 : Ops TierE CompleteE where
  g := 16
  hashI := Tier.hash ops1
  finalizeI := Tier.finalize ops1
  forgetI := fun t i => let r := Tier.forget ops1 t i; (.keep r.1, r.2)
  witnessI := Tier.witness ops1
  hashC := CTr.hash ops1.hashC 8
  forgetC := CTr.forgetOwned ops1.forgetC 8
  witnessC := CTr.witness ops1.witnessC ops1.hashC 8

/-- The outermost tier: `Tier<Tier<Tier<Item>>>` (the eternity's inner tree). -/
abbrev TierT := Tier TierE CompleteE

/-- Recompute a root from a leaf hash and an authentication path (the proof
verifier; `proof.rs` is not among the sources).  Modelled from the spec (§2
item 6, §4.6): fold the per-level sibling triples upward, placing the running
hash at the branch position selected by the position's two bits for that
level. -/
def rootFromPath : Nat → Nat → List Sib3 → Hash → Hash
  | _, _, [], leaf => leaf
  | height, pos, (s1, s2, s3) :: rest, leaf =>
      let below := rootFromPath (height - 1) (pos % 4 ^ (height - 1)) rest leaf
      match pos / 4 ^ (height - 1) % 4 with
      | 0 => Hash.node height below s1 s2 s3
      | 1 => Hash.node height s1 below s2 s3
      | 2 => Hash.node height s1 s2 below s3
      | _ + 3 => Hash.node height s1 s2 s3 below

/-- An eternity inclusion proof: `(commitment, position, auth_path)`
(eternity.rs `Proof`, with the 24-level path as a list). -/
structure Proof where
  position : Nat
  authPath : List Sib3
  leaf : Commitment
deriving DecidableEq, Repr

/-- Modelled from the spec: proof verification recomputes the root from the
leaf and the per-level sibling hashes and compares it with the claimed root. -/
def Proof.verify (pf : Proof) (root : Hash) : Bool :=
  rootFromPath 24 pf.position pf.authPath (Hash.ofItem pf.leaf) == root

/-- Association-list lookup for the commitment index (`HashedMap::get`). -/
def elookup : List (Commitment × Nat) → Commitment → Option Nat
  | [], _ => none
  | (c, p) :: rest, c2 => if c = c2 then some p else elookup rest c2

/-- Association-list removal for the commitment index (`HashedMap::remove`). -/
def eremove : List (Commitment × Nat) → Commitment → List (Commitment × Nat)
  | [], _ => []
  | (c, p) :: rest, c2 =>
      if c = c2 then eremove rest c2 else (c, p) :: eremove rest c2

/-- `Eternity` (eternity.rs, lines 27–31): the next-insertion position (48-bit
packed `epoch:16 || block:16 || commitment:16`, stored here as the packed
number), the commitment index, and the inner `Tier<Tier<Tier<Item>>>`.  The
index is an association list standing for the `HashedMap`. -/
structure Eternity where
  position : Nat
  index : List (Commitment × Nat)
  inner : TierT

/-- `Eternity::new` (eternity.rs, lines 115–117): the default eternity. -/
def Eternity.new : Eternity := ⟨0, [], Tier.new⟩

/-- `Eternity::root` (eternity.rs, lines 127–129): the hash of the inner tier
(the `Root` newtype is collapsed). -/
def Eternity.root (e : Eternity) : Hash :=
  Tier.hash ops2 e.inner

/-- `Eternity::witness` (eternity.rs, lines 159–178): look the commitment up in
the index; absent means `None`; otherwise witness the tree at the indexed
position and package the proof.  (The source panics when an indexed position is
not witnessed in the tree; that branch, unreachable for index-consistent
states, is `none` here.) -/
def Eternity.witness (e : Eternity) (c : Commitment) : Option Proof :=
  match elookup e.index c with
  | none => none
  | some p =>
      match Tier.witness ops2 e.inner p with
      | none => none
      | some pl => some ⟨p, pl.1, c⟩

/-- `Eternity::forget` (eternity.rs, lines 184–200): if the commitment is
indexed, forget its position in the tree, remove the index entry and return
`true`; otherwise return `false`. -/
def Eternity.forget (e : Eternity) (c : Commitment) : Eternity × Bool :=
  match elookup e.index c with
  | none => (e, false)
  | some p =>
      let r := Tier.forget ops2 e.inner p
      ({ position := e.position, index := eremove e.index c, inner := r.1 }, true)

/-- `Eternity::witnessed_count` (eternity.rs, lines 466–468). -/
def Eternity.witnessedCount (e : Eternity) : Nat :=
  e.index.length

/-! ### Equality between active and complete tiers (§4.7)

`PartialEq for Inner` and `PartialEq<complete::Tier> for Tier` are in
active/tier.rs (lines 44–102) and are mirrored below; the heterogeneous
equality between an active and a complete *tree* that they rely on lives in the
absent active node/leaf modules and is modelled from the spec (§4.7:
level-by-level recursive equality, where a hash stub is never equal to anything
holding witnesses). -/

/-- `PartialEq` for `Insert` slots (possibly heterogeneous in the kept type):
kept compares to kept, hash to hash, and never across. -/
def insBeq (f : α → δ → Bool) : Insert α → Insert δ → Bool
  | .keep a, .keep b => f a b
  | .hash x, .hash y => x == y
  | _, _ => false

/-- Structural equality of complete trees (the derived `PartialEq` for
`complete::Node`, which ignores the hash cache). -/
def CTr.beq (eqγ : γ → γ → Bool) : {h : Nat} → CTr γ h → CTr γ h → Bool
  | 0, x, y => eqγ x y
  | h + 1, (a, b, c, d), (a2, b2, c2, d2) =>
      insBeq (CTr.beq eqγ (h := h)) a a2 && insBeq (CTr.beq eqγ) b b2 &&
      insBeq (CTr.beq eqγ) c c2 && insBeq (CTr.beq eqγ) d d2

/-- Equality of sibling buffers. -/
def threeBeq (f : α → α → Bool) : Three α → Three α → Bool
  | .zero, .zero => true
  | .one a, .one a2 => f a a2
  | .two a b, .two a2 b2 => f a a2 && f b b2
  | .three a b c, .three a2 b2 c2 => f a a2 && f b b2 && f c c2
  | _, _ => false

/-- Homogeneous equality of active trees (the derived `PartialEq` for
`active::Node`, cache ignored). -/
def ATr.beqA (eqβ : β → β → Bool) (eqγ : γ → γ → Bool) :
    {h : Nat} → ATr β γ h → ATr β γ h → Bool
  | 0, y, y2 => eqβ y y2
  | h + 1, (sibs, focus), (sibs2, focus2) =>
      threeBeq (insBeq (CTr.beq eqγ (h := h))) sibs sibs2 &&
      ATr.beqA eqβ eqγ focus focus2

/-- Modelled from the spec (§4.7): heterogeneous equality between an active
tree and a complete tree, level by level: the completed siblings compare to the
leading complete child slots, the focus compares recursively to the next slot
(which must be kept, since an active focus holds the witness structure), and
the remaining complete slots must be the default-hash padding. -/
def ATr.heq (eqBG : β → γ → Bool) (eqγ : γ → γ → Bool) :
    {h : Nat} → ATr β γ h → CTr γ h → Bool
  | 0, y, x => eqBG y x
  | h + 1, (sibs, focus), (a, b, c, d) =>
      let pad : Insert (CTr γ h) → Bool := fun s =>
        match s with | .hash x => x == Hash.default | .keep _ => false
      let slotF : Insert (CTr γ h) → Bool := fun s =>
        match s with | .keep t => ATr.heq eqBG eqγ focus t | .hash _ => false
      let ceq := insBeq (CTr.beq eqγ (h := h))
      match sibs with
      | .zero => slotF a && pad b && pad c && pad d
      | .one a0 => ceq a0 a && slotF b && pad c && pad d
      | .two a0 b0 => ceq a0 a && ceq b0 b && slotF c && pad d
      | .three a0 b0 c0 => ceq a0 a && ceq b0 b && ceq c0 c && slotF d

/-- `PartialEq for Inner` (active/tier.rs, lines 44–76): a hash tier is never
equal to an active or complete tier; two active (or two complete) tiers compare
their trees; an active tier equals a complete tier iff it is non-empty and the
trees compare heterogeneously; two hash tiers compare their hashes. -/
def Inner.beq (eqβA : ATr (Insert ι) γ 8 → ATr (Insert ι) γ 8 → Bool)
    (eqC : CTr γ 8 → CTr γ 8 → Bool)
    (heq8 : ATr (Insert ι) γ 8 → CTr γ 8 → Bool) : Inner ι γ → Inner ι γ → Bool
  | .active _, .hash _ => false
  | .complete _, .hash _ => false
  | .hash _, .active _ => false
  | .hash _, .complete _ => false
  | .active l, .active r =>
      match l, r with
      | none, none => true
      | some a, some b => eqβA a b
      | _, _ => false
  | .complete l, .complete r => eqC l r
  | .active l, .complete r => match l with | some a => heq8 a r | none => false
  | .complete l, .active r => match r with | some a => heq8 a l | none => false
  | .hash l, .hash r => l == r

/-- `PartialEq<complete::Tier> for Tier` (active/tier.rs, lines 78–102): a hash
tier is never equal to a complete tier; an empty active tier is never equal to
a complete tier; otherwise compare the trees. -/
def Tier.eqComplete (heq8 : ATr (Insert ι) γ 8 → CTr γ 8 → Bool)
    (eqC : CTr γ 8 → CTr γ 8 → Bool) (t : Tier ι γ) (c : CTr γ 8) : Bool :=
  match t.inner with
  | .hash _ => false
  | .active (some a) => heq8 a c
  | .active none => false
  | .complete r => eqC c r

/-- Item equality for the block tier (`PartialEq` on commitments). -/
def beqItem : Commitment → Commitment → Bool := fun a b => a == b

/-- Modelled from the spec (§4.7): an active leaf slot equals a complete item
iff it keeps the same item; a hash stub never equals a witnessed item. -/
def eqBG0 : Insert Commitment → Commitment → Bool
  | .keep x, y => x == y
  | .hash _, _ => false

/-- Block-level heterogeneous tree equality. -/
def heqB : ATr (Insert Commitment) Commitment 8 → CompleteB → Bool :=
  ATr.heq eqBG0 beqItem

/-- Block-level complete-tree equality. -/
def eqCB : CompleteB → CompleteB → Bool :=
  CTr.beq beqItem

/-- Block-level active-tree equality. -/
def eqAB : ATr (Insert Commitment) Commitment 8 → ATr (Insert Commitment) Commitment 8 → Bool :=
  ATr.beqA (insBeq beqItem) beqItem

/-- Block-level `PartialEq for Inner`. -/
def innerBeqB : Inner Commitment Commitment → Inner Commitment Commitment → Bool :=
  Inner.beq eqAB eqCB heqB

/-! ### State observations on `Inner` -/

/-- Whether the tier state refuses further insertions (`Complete` or `Hash`). -/
def Inner.isTerminal : Inner ι γ → Bool
  | .active _ => false
  | _ => true

/-- Whether the tier state is an occupied active tree. -/
def Inner.isActiveSome : Inner ι γ → Bool
  | .active (some _) => true
  | _ => false

/-- Whether the tier state is a bare hash. -/
def Inner.isHashState : Inner ι γ → Bool
  | .hash _ => true
  | _ => false

/-- Whether the tier state is a completed tree. -/
def Inner.isCompleteState : Inner ι γ → Bool
  | .complete _ => true
  | _ => false

/-! ### Validity instantiations for the three stacked tiers -/

/-- Validity of a block tier (items are always valid). -/
def vTierB : TierB → Bool := Tier.validb (fun _ => true) (fun _ => true)

/-- Validity of a complete block. -/
def vCompleteB : CompleteB → Bool := CTr.validb (fun _ => true)

/-- Validity of an epoch tier. -/
def vTierE : TierE → Bool := Tier.validb vTierB vCompleteB

/-- Validity of a complete epoch. -/
def vCompleteE : CompleteE → Bool := CTr.validb vCompleteB

/-- Validity of the eternity's inner tier. -/
def vTierT : TierT → Bool := Tier.validb vTierE vCompleteE

/-- Index consistency of one index entry: the tree witnesses the entry's
position and the witnessed leaf hash is the commitment's hash (the invariant
`index[c] = p` iff the leaf at `p` is witnessed and carries `c`, §3). -/
def witOkb (e : Eternity) (cp : Commitment × Nat) : Bool :=
  match Tier.witness ops2 e.inner cp.2 with
  | some pl => pl.2 == Hash.ofItem cp.1
  | none => false

/-! ### Sample values for concrete evaluations -/

/-- A block tier holding the single kept commitment `5`. -/
def blockT : TierB := ⟨1, 1, .active (some (ATr.singleton (.keep 5) 8))⟩

/-- An epoch tier holding `blockT`. -/
def epochT : TierE := ⟨1, 1, .active (some (ATr.singleton (.keep blockT) 8))⟩

/-- An eternity tier holding `epochT`. -/
def eternT : TierT := ⟨1, 1, .active (some (ATr.singleton (.keep epochT) 8))⟩

/-- An eternity with commitment `5` witnessed at position `0`. -/
def eSample : Eternity := ⟨1, [(5, 0)], eternT⟩

/-- A full active tree all of whose leaves were hash-inserted (every sibling
buffer full of stubs, focus a stub). -/
def fullHashA : (h : Nat) → ATr (Insert Commitment) Commitment h
  | 0 => Insert.hash Hash.default
  | h + 1 =>
      (.three (.hash Hash.default) (.hash Hash.default) (.hash Hash.default),
       fullHashA h)

/-- A full active tree whose focused leaf keeps commitment `7` (all other slots
stubs). -/
def fullKeepA : (h : Nat) → ATr (Insert Commitment) Commitment h
  | 0 => Insert.keep 7
  | h + 1 =>
      (.three (.hash Hash.default) (.hash Hash.default) (.hash Hash.default),
       fullKeepA h)

/-- A block tier whose active tree is full with no witnesses. -/
def tFullHash : TierB := ⟨65535, 0, .active (some (fullHashA 8))⟩

/-- A block tier whose active tree is full with one witness. -/
def tFullKeep : TierB := ⟨65535, 1, .active (some (fullKeepA 8))⟩

/-- A block tier already collapsed to a bare hash. -/
def tHashState : TierB := ⟨0, 0, .hash Hash.default⟩

/-! ### The staking rate module (stake/src/rate.rs)

The arithmetic is `u64` in the source; `mul64`/`add64`/`sub64` are Rust's
release-mode wrapping semantics, and the `Exact` variant computes the same
formulas with unbounded integers for comparison. -/

/-- `BASE_REWARD_RATE` (rate.rs, line 11). -/
def BASE_REWARD_RATE : Nat := 30000

/-- Wrapping `u64` multiplication. -/
def mul64 (a b : Nat) : Nat := a * b % 2 ^ 64

/-- Wrapping `u64` addition. -/
def add64 (a b : Nat) : Nat := (a + b) % 2 ^ 64

/-- Wrapping `u64` subtraction (for values already below `2 ^ 64`). -/
def sub64 (a b : Nat) : Nat := (a + 2 ^ 64 - b % 2 ^ 64) % 2 ^ 64

/-- `FundingStream` (only its `rate_bps` field is used by `next_rates`). -/
structure FundingStream where
  rateBps : Nat
deriving DecidableEq, Repr

/-- `RateData` (rate.rs, lines 16–27). -/
structure RateData where
  identityKey : Nat
  epochIndex : Nat
  votingPower : Nat
  validatorRewardRate : Nat
  validatorExchangeRate : Nat
deriving DecidableEq, Repr

/-- `BaseRateData` (rate.rs, lines 70–77). -/
structure BaseRateData where
  epochIndex : Nat
  baseRewardRate : Nat
  baseExchangeRate : Nat
deriving DecidableEq, Repr

/-- `RateData::next_rates` (rate.rs, lines 30–65) with Rust's wrapping `u64`
arithmetic. -/
def RateData.nextRates (r : RateData) (base : BaseRateData)
    (fundingStreams : List FundingStream) : RateData :=
  let commissionRateBps :=
    fundingStreams.foldl (fun total stream => add64 total stream.rateBps) 0
  let validatorRewardRate :=
    mul64 (sub64 100000000 (mul64 commissionRateBps 10000)) BASE_REWARD_RATE /
      100000000
  let validatorExchangeRate :=
    mul64 r.validatorExchangeRate (add64 r.validatorRewardRate 100000000) /
      100000000
  let votingPowerAdjustment :=
    mul64 validatorExchangeRate 100000000 / base.baseExchangeRate
  { identityKey := r.identityKey
    epochIndex := add64 r.epochIndex 1
    votingPower := mul64 r.votingPower votingPowerAdjustment
    validatorRewardRate := validatorRewardRate
    validatorExchangeRate := validatorExchangeRate }

/-- `RateData::next_rates` recomputed with exact (unbounded) integer
arithmetic, for comparison with the wrapping computation. -/
def RateData.nextRatesExact (r : RateData) (base : BaseRateData)
    (fundingStreams : List FundingStream) : RateData :=
  let commissionRateBps :=
    fundingStreams.foldl (fun total stream => total + stream.rateBps) 0
  let validatorRewardRate :=
    ((100000000 - commissionRateBps * 10000) * BASE_REWARD_RATE) / 100000000
  let validatorExchangeRate :=
    (r.validatorExchangeRate * (r.validatorRewardRate + 100000000)) / 100000000
  let votingPowerAdjustment :=
    (validatorExchangeRate * 100000000) / base.baseExchangeRate
  { identityKey := r.identityKey
    epochIndex := r.epochIndex + 1
    votingPower := r.votingPower * votingPowerAdjustment
    validatorRewardRate := validatorRewardRate
    validatorExchangeRate := validatorExchangeRate }

/-- A rate sample with large voting power and exchange rate. -/
def rBig : RateData :=
  { identityKey := 0
    epochIndex := 0
    votingPower := 2 ^ 63
    validatorRewardRate := 0
    validatorExchangeRate := 2 ^ 61 }

/-- A base rate sample with unit exchange rate (`100000000` = 1.0 in bps
fixed point). -/
def baseUnit : BaseRateData :=
  { epochIndex := 0
    baseRewardRate := BASE_REWARD_RATE
    baseExchangeRate := 100000000 }

/-! ## Helper lemmas -/

theorem elookup_eremove_self (l : List (Commitment × Nat)) (c : Commitment) :
    elookup (eremove l c) c = none := by
  induction l with
  | nil => rfl
  | cons hd tl ih =>
      obtain ⟨k, p⟩ := hd
      by_cases hk : k = c
      · simpa [eremove, hk] using ih
      · simp [eremove, hk, elookup, ih]

theorem elookup_mem {l : List (Commitment × Nat)} {c : Commitment} {p : Nat}
    (h : elookup l c = some p) : (c, p) ∈ l := by
  induction l with
  | nil => simp [elookup] at h
  | cons hd tl ih =>
      obtain ⟨k, q⟩ := hd
      by_cases hk : k = c
      · subst hk
        simp [elookup] at h
        subst h
        exact List.mem_cons_self _ _
      · simp [elookup, hk] at h
        exact List.mem_cons_of_mem _ (ih h)

/-- Reassembling four children (collapsing an all-hash family) preserves the
node hash. -/
theorem hashWith_fromChildrenOrElseHash (hγ : γ → Hash) (g : Nat) {h : Nat}
    (a b c d : Insert (CTr γ h)) :
    Insert.hashWith (CTr.hash hγ g) (fromChildrenOrElseHash g a b c d) =
      Hash.node (g + h + 1) (a.hashWith (CTr.hash hγ g))
        (b.hashWith (CTr.hash hγ g)) (c.hashWith (CTr.hash hγ g))
        (d.hashWith (CTr.hash hγ g)) := by
  cases a <;> cases b <;> cases c <;> cases d <;> rfl

/-- `forget_owned` preserves the hash of a complete tree, provided the leaf
forgetter does. -/
theorem forgetOwned_hashWith (hγ : γ → Hash) (fγ : γ → Nat → Insert γ × Bool)
    (g : Nat) (hf : ∀ x i, Insert.hashWith hγ (fγ x i).1 = hγ x) :
    ∀ {h : Nat} (t : CTr γ h) (i : Nat),
      Insert.hashWith (CTr.hash hγ g) (CTr.forgetOwned fγ g t i).1 =
        CTr.hash hγ g t := by
  intro h
  induction h with
  | zero =>
      intro t i
      have h2 := hf t i
      cases hr : fγ t i with
      | mk ins fl =>
          rw [hr] at h2
          cases ins with
          | keep y =>
              simp only [CTr.forgetOwned, hr]
              simpa [Insert.hashWith, CTr.hash] using h2
          | hash z =>
              simp only [CTr.forgetOwned, hr]
              simpa [Insert.hashWith, CTr.hash] using h2
  | succ h ih =>
      intro t i
      obtain ⟨a, b, c, d⟩ := t
      rcases hbr : i / 4 ^ (g + h) % 4 with (_ | (_ | (_ | n)))
      · cases a with
        | keep t2 =>
            simp only [CTr.forgetOwned, hbr]
            rw [hashWith_fromChildrenOrElseHash, ih t2]
            rfl
        | hash x =>
            simp only [CTr.forgetOwned, hbr]
            rw [hashWith_fromChildrenOrElseHash]
            rfl
      · cases b with
        | keep t2 =>
            simp only [CTr.forgetOwned, hbr]
            rw [hashWith_fromChildrenOrElseHash, ih t2]
            rfl
        | hash x =>
            simp only [CTr.forgetOwned, hbr]
            rw [hashWith_fromChildrenOrElseHash]
            rfl
      · cases c with
        | keep t2 =>
            simp only [CTr.forgetOwned, hbr]
            rw [hashWith_fromChildrenOrElseHash, ih t2]
            rfl
        | hash x =>
            simp only [CTr.forgetOwned, hbr]
            rw [hashWith_fromChildrenOrElseHash]
            rfl
      · cases d with
        | keep t2 =>
            simp only [CTr.forgetOwned, hbr]
            rw [hashWith_fromChildrenOrElseHash, ih t2]
            rfl
        | hash x =>
            simp only [CTr.forgetOwned, hbr]
            rw [hashWith_fromChildrenOrElseHash]
            rfl

/-- Forgetting in one sibling slot preserves the slot's hash. -/
theorem siblingForget_hashWith (hγ : γ → Hash) (fγ : γ → Nat → Insert γ × Bool)
    (g : Nat) (hf : ∀ x i, Insert.hashWith hγ (fγ x i).1 = hγ x) {h : Nat}
    (s : Insert (CTr γ h)) (rest : Nat) :
    Insert.hashWith (CTr.hash hγ g) (siblingForget fγ g rest s).1 =
      Insert.hashWith (CTr.hash hγ g) s := by
  cases s with
  | keep t => exact forgetOwned_hashWith hγ fγ g hf t rest
  | hash x => rfl

/-- Forgetting on the active frontier preserves the active tree's hash,
provided the leaf forgetters do. -/
theorem atrForget_hash (hβ : β → Hash) (hγ : γ → Hash) (fβ : β → Nat → β × Bool)
    (fγ : γ → Nat → Insert γ × Bool) (g : Nat)
    (hfβ : ∀ y i, hβ (fβ y i).1 = hβ y)
    (hfγ : ∀ x i, Insert.hashWith hγ (fγ x i).1 = hγ x) :
    ∀ {h : Nat} (t : ATr β γ h) (i : Nat),
      ATr.hash hβ hγ g (ATr.forget fβ fγ g t i).1 = ATr.hash hβ hγ g t := by
  intro h
  induction h with
  | zero => intro t i; simpa [ATr.forget, ATr.hash] using hfβ t i
  | succ h ih =>
      intro t i
      obtain ⟨sibs, focus⟩ := t
      rcases hbr : i / 4 ^ (g + h) % 4 with (_ | (_ | (_ | n))) <;> cases sibs <;>
        simp [ATr.forget, hbr, ATr.hash, ih,
          siblingForget_hashWith hγ fγ g hfγ]

/-- `Forget for Tier` preserves the tier hash, provided the item-level
forgetters do. -/
theorem tierForget_hash (o : Ops ι γ)
    (hfI : ∀ x i, Insert.hashWith o.hashI (o.forgetI x i).1 = o.hashI x)
    (hfC : ∀ x i, Insert.hashWith o.hashC (o.forgetC x i).1 = o.hashC x)
    (t : Tier ι γ) (i : Nat) :
    Tier.hash o (Tier.forget o t i).1 = Tier.hash o t := by
  obtain ⟨l, w, inn⟩ := t
  cases inn with
  | active a =>
      cases a with
      | none => rfl
      | some tr =>
          have hfβ : ∀ (y : Insert ι) (j : Nat),
              o.hashB (o.forgetB y j).1 = o.hashB y := by
            intro y j
            cases y with
            | keep x => exact hfI x j
            | hash z => rfl
          simpa [Tier.forget, Tier.hash] using
            atrForget_hash o.hashB o.hashC o.forgetB o.forgetC o.g hfβ hfC tr i
  | complete cc =>
      have h2 := forgetOwned_hashWith o.hashC o.forgetC o.g hfC cc i
      cases hr : CTr.forgetOwned o.forgetC o.g cc i with
      | mk ins fl =>
          rw [hr] at h2
          cases ins with
          | keep c2 =>
              simpa [Tier.forget, hr, Tier.hash, Insert.hashWith] using h2
          | hash x =>
              simpa [Tier.forget, hr, Tier.hash, Insert.hashWith] using h2
  | hash x => rfl

/-- Item-level hash stability of forgetting, block level. -/
theorem hfI0 : ∀ (x : Commitment) (i : Nat),
    Insert.hashWith ops0.hashI (ops0.forgetI x i).1 = ops0.hashI x :=
  fun _ _ => rfl

/-- Complete-leaf hash stability of forgetting, block level. -/
theorem hfC0 : ∀ (x : Commitment) (i : Nat),
    Insert.hashWith ops0.hashC (ops0.forgetC x i).1 = ops0.hashC x :=
  fun _ _ => rfl

/-- Block-tier forget preserves the block root. -/
theorem tierForget_hash0 (t : TierB) (i : Nat) :
    Tier.hash ops0 (Tier.forget ops0 t i).1 = Tier.hash ops0 t :=
  tierForget_hash ops0 hfI0 hfC0 t i

/-- Item-level hash stability of forgetting, epoch level. -/
theorem hfI1 : ∀ (t : TierB) (i : Nat),
    Insert.hashWith ops1.hashI (ops1.forgetI t i).1 = ops1.hashI t := by
  intro t i
  simpa [ops1, Insert.hashWith] using tierForget_hash0 t i

/-- Complete-leaf hash stability of forgetting, epoch level. -/
theorem hfC1 : ∀ (x : CompleteB) (i : Nat),
    Insert.hashWith ops1.hashC (ops1.forgetC x i).1 = ops1.hashC x :=
  fun x i => forgetOwned_hashWith ops0.hashC ops0.forgetC 0 hfC0 x i

/-- Epoch-tier forget preserves the epoch root. -/
theorem tierForget_hash1 (t : TierE) (i : Nat) :
    Tier.hash ops1 (Tier.forget ops1 t i).1 = Tier.hash ops1 t :=
  tierForget_hash ops1 hfI1 hfC1 t i

/-- Item-level hash stability of forgetting, eternity level. -/
theorem hfI2 : ∀ (t : TierE) (i : Nat),
    Insert.hashWith ops2.hashI (ops2.forgetI t i).1 = ops2.hashI t := by
  intro t i
  simpa [ops2, Insert.hashWith] using tierForget_hash1 t i

/-- Complete-leaf hash stability of forgetting, eternity level. -/
theorem hfC2 : ∀ (x : CompleteE) (i : Nat),
    Insert.hashWith ops2.hashC (ops2.forgetC x i).1 = ops2.hashC x :=
  fun x i => forgetOwned_hashWith ops1.hashC ops1.forgetC 8 hfC1 x i

/-- Eternity-tier forget preserves the eternity root. -/
theorem tierForget_hash2 (t : TierT) (i : Nat) :
    Tier.hash ops2 (Tier.forget ops2 t i).1 = Tier.hash ops2 t :=
  tierForget_hash ops2 hfI2 hfC2 t i

/-- A witness produced by a complete tree recomputes the tree's hash when
folded from the leaf upward, provided leaf witnesses do. -/
theorem ctrWitness_root (wγ : γ → Nat → Option (List Sib3 × Hash)) (hγ : γ → Hash)
    (g : Nat)
    (hw : ∀ x i pl, wγ x i = some pl → rootFromPath g i pl.1 pl.2 = hγ x) :
    ∀ {h : Nat} (t : CTr γ h) (i : Nat) (pl : List Sib3 × Hash),
      CTr.witness wγ hγ g t i = some pl →
      rootFromPath (g + h) i pl.1 pl.2 = CTr.hash hγ g t := by
  intro h
  induction h with
  | zero => exact fun t i pl hx => hw t i pl hx
  | succ h ih =>
      intro t i pl hx
      obtain ⟨a, b, c, d⟩ := t
      rcases hbr : i / 4 ^ (g + h) % 4 with (_ | (_ | (_ | n)))
      · simp only [CTr.witness, hbr] at hx
        cases a with
        | hash xa => simp at hx
        | keep t2 =>
            rw [Option.map_eq_some'] at hx
            obtain ⟨pl2, hw2, rfl⟩ := hx
            simp only [rootFromPath, Nat.add_succ_sub_one, hbr]
            rw [ih t2 _ pl2 hw2]
            rfl
      · simp only [CTr.witness, hbr] at hx
        cases b with
        | hash xb => simp at hx
        | keep t2 =>
            rw [Option.map_eq_some'] at hx
            obtain ⟨pl2, hw2, rfl⟩ := hx
            simp only [rootFromPath, Nat.add_succ_sub_one, hbr]
            rw [ih t2 _ pl2 hw2]
            rfl
      · simp only [CTr.witness, hbr] at hx
        cases c with
        | hash xc => simp at hx
        | keep t2 =>
            rw [Option.map_eq_some'] at hx
            obtain ⟨pl2, hw2, rfl⟩ := hx
            simp only [rootFromPath, Nat.add_succ_sub_one, hbr]
            rw [ih t2 _ pl2 hw2]
            rfl
      · simp only [CTr.witness, hbr] at hx
        cases d with
        | hash xd => simp at hx
        | keep t2 =>
            rw [Option.map_eq_some'] at hx
            obtain ⟨pl2, hw2, rfl⟩ := hx
            simp only [rootFromPath, Nat.add_succ_sub_one, hbr]
            rw [ih t2 _ pl2 hw2]
            rfl

/-- A witness produced by an active tree recomputes the tree's hash when folded
from the leaf upward, provided leaf witnesses do. -/
theorem atrWitness_root (wβ : β → Nat → Option (List Sib3 × Hash)) (hβ : β → Hash)
    (wγ : γ → Nat → Option (List Sib3 × Hash)) (hγ : γ → Hash) (g : Nat)
    (hwβ : ∀ y i pl, wβ y i = some pl → rootFromPath g i pl.1 pl.2 = hβ y)
    (hwγ : ∀ x i pl, wγ x i = some pl → rootFromPath g i pl.1 pl.2 = hγ x) :
    ∀ {h : Nat} (t : ATr β γ h) (i : Nat) (pl : List Sib3 × Hash),
      ATr.witness wβ hβ wγ hγ g t i = some pl →
      rootFromPath (g + h) i pl.1 pl.2 = ATr.hash hβ hγ g t := by
  intro h
  induction h with
  | zero => exact fun t i pl hx => hwβ t i pl hx
  | succ h ih =>
      intro t i pl hx
      obtain ⟨sibs, focus⟩ := t
      have hsib : ∀ (s : Insert (CTr γ h)) (rest : Nat) (pl2 : List Sib3 × Hash),
          siblingWitness wγ hγ g rest s = some pl2 →
          rootFromPath (g + h) rest pl2.1 pl2.2 =
            Insert.hashWith (CTr.hash hγ g) s := by
        intro s rest pl2 hs
        cases s with
        | keep t2 => exact ctrWitness_root wγ hγ g hwγ t2 rest pl2 hs
        | hash x => simp [siblingWitness] at hs
      cases sibs with
      | zero =>
          rcases hbr : i / 4 ^ (g + h) % 4 with (_ | (_ | (_ | n)))
          · simp only [ATr.witness, hbr] at hx
            rw [Option.map_eq_some'] at hx
            obtain ⟨pl2, hw2, rfl⟩ := hx
            simp only [rootFromPath, Nat.add_succ_sub_one, hbr]
            rw [ih focus _ pl2 hw2]
            rfl
          · simp only [ATr.witness, hbr] at hx
            simp at hx
          · simp only [ATr.witness, hbr] at hx
            simp at hx
          · simp only [ATr.witness, hbr] at hx
            simp at hx
      | one a =>
          rcases hbr : i / 4 ^ (g + h) % 4 with (_ | (_ | (_ | n)))
          · simp only [ATr.witness, hbr] at hx
            rw [Option.map_eq_some'] at hx
            obtain ⟨pl2, hw2, rfl⟩ := hx
            simp only [rootFromPath, Nat.add_succ_sub_one, hbr]
            rw [hsib _ _ pl2 hw2]
            rfl
          · simp only [ATr.witness, hbr] at hx
            rw [Option.map_eq_some'] at hx
            obtain ⟨pl2, hw2, rfl⟩ := hx
            simp only [rootFromPath, Nat.add_succ_sub_one, hbr]
            rw [ih focus _ pl2 hw2]
            rfl
          · simp only [ATr.witness, hbr] at hx
            simp at hx
          · simp only [ATr.witness, hbr] at hx
            simp at hx
      | two a b =>
          rcases hbr : i / 4 ^ (g + h) % 4 with (_ | (_ | (_ | n)))
          · simp only [ATr.witness, hbr] at hx
            rw [Option.map_eq_some'] at hx
            obtain ⟨pl2, hw2, rfl⟩ := hx
            simp only [rootFromPath, Nat.add_succ_sub_one, hbr]
            rw [hsib _ _ pl2 hw2]
            rfl
          · simp only [ATr.witness, hbr] at hx
            rw [Option.map_eq_some'] at hx
            obtain ⟨pl2, hw2, rfl⟩ := hx
            simp only [rootFromPath, Nat.add_succ_sub_one, hbr]
            rw [hsib _ _ pl2 hw2]
            rfl
          · simp only [ATr.witness, hbr] at hx
            rw [Option.map_eq_some'] at hx
            obtain ⟨pl2, hw2, rfl⟩ := hx
            simp only [rootFromPath, Nat.add_succ_sub_one, hbr]
            rw [ih focus _ pl2 hw2]
            rfl
          · simp only [ATr.witness, hbr] at hx
            simp at hx
      | three a b c =>
          rcases hbr : i / 4 ^ (g + h) % 4 with (_ | (_ | (_ | n)))
          · simp only [ATr.witness, hbr] at hx
            rw [Option.map_eq_some'] at hx
            obtain ⟨pl2, hw2, rfl⟩ := hx
            simp only [rootFromPath, Nat.add_succ_sub_one, hbr]
            rw [hsib _ _ pl2 hw2]
            rfl
          · simp only [ATr.witness, hbr] at hx
            rw [Option.map_eq_some'] at hx
            obtain ⟨pl2, hw2, rfl⟩ := hx
            simp only [rootFromPath, Nat.add_succ_sub_one, hbr]
            rw [hsib _ _ pl2 hw2]
            rfl
          · simp only [ATr.witness, hbr] at hx
            rw [Option.map_eq_some'] at hx
            obtain ⟨pl2, hw2, rfl⟩ := hx
            simp only [rootFromPath, Nat.add_succ_sub_one, hbr]
            rw [hsib _ _ pl2 hw2]
            rfl
          · simp only [ATr.witness, hbr] at hx
            rw [Option.map_eq_some'] at hx
            obtain ⟨pl2, hw2, rfl⟩ := hx
            simp only [rootFromPath, Nat.add_succ_sub_one, hbr]
            rw [ih focus _ pl2 hw2]
            rfl

/-- A witness produced by a tier recomputes the tier's hash, provided the
item-level witnesses do.  The tier's root sits eight levels above its items. -/
theorem tierWitness_root (o : Ops ι γ)
    (hwI : ∀ x i pl, o.witnessI x i = some pl →
      rootFromPath o.g i pl.1 pl.2 = o.hashI x)
    (hwC : ∀ x i pl, o.witnessC x i = some pl →
      rootFromPath o.g i pl.1 pl.2 = o.hashC x)
    (t : Tier ι γ) (i : Nat) (pl : List Sib3 × Hash)
    (hx : Tier.witness o t i = some pl) :
    rootFromPath (o.g + 8) i pl.1 pl.2 = Tier.hash o t := by
  obtain ⟨l, w, inn⟩ := t
  cases inn with
  | active a =>
      cases a with
      | none => simp [Tier.witness] at hx
      | some tr =>
          have hwβ : ∀ (y : Insert ι) (j : Nat) (pl2 : List Sib3 × Hash),
              o.witnessB y j = some pl2 →
              rootFromPath o.g j pl2.1 pl2.2 = o.hashB y := by
            intro y j pl2 hy
            cases y with
            | keep x => exact hwI x j pl2 hy
            | hash z => simp [Ops.witnessB] at hy
          simp only [Tier.witness] at hx
          simpa [Tier.hash] using
            atrWitness_root o.witnessB o.hashB o.witnessC o.hashC o.g hwβ hwC tr i pl hx
  | complete cc =>
      simp only [Tier.witness] at hx
      simpa [Tier.hash] using ctrWitness_root o.witnessC o.hashC o.g hwC cc i pl hx
  | hash x => simp [Tier.witness] at hx

/-- Item-level witness-root correctness, block level. -/
theorem hw0I : ∀ (x : Commitment) (i : Nat) (pl : List Sib3 × Hash),
    ops0.witnessI x i = some pl → rootFromPath ops0.g i pl.1 pl.2 = ops0.hashI x := by
  intro x i pl hx
  simp only [ops0] at hx
  cases hx
  rfl

/-- Complete-leaf witness-root correctness, block level. -/
theorem hw0C : ∀ (x : Commitment) (i : Nat) (pl : List Sib3 × Hash),
    ops0.witnessC x i = some pl → rootFromPath ops0.g i pl.1 pl.2 = ops0.hashC x := by
  intro x i pl hx
  simp only [ops0] at hx
  cases hx
  rfl

/-- Block-tier witness-root correctness, as the epoch-level item hypothesis. -/
theorem hw1I : ∀ (t : TierB) (i : Nat) (pl : List Sib3 × Hash),
    ops1.witnessI t i = some pl → rootFromPath ops1.g i pl.1 pl.2 = ops1.hashI t :=
  fun t i pl hx => tierWitness_root ops0 hw0I hw0C t i pl hx

/-- Complete-block witness-root correctness, epoch level. -/
theorem hw1C : ∀ (x : CompleteB) (i : Nat) (pl : List Sib3 × Hash),
    ops1.witnessC x i = some pl → rootFromPath ops1.g i pl.1 pl.2 = ops1.hashC x :=
  fun x i pl hx => ctrWitness_root ops0.witnessC ops0.hashC 0 hw0C x i pl hx

/-- Epoch-tier witness-root correctness, as the eternity-level item
hypothesis. -/
theorem hw2I : ∀ (t : TierE) (i : Nat) (pl : List Sib3 × Hash),
    ops2.witnessI t i = some pl → rootFromPath ops2.g i pl.1 pl.2 = ops2.hashI t :=
  fun t i pl hx => tierWitness_root ops1 hw1I hw1C t i pl hx

/-- Complete-epoch witness-root correctness, eternity level. -/
theorem hw2C : ∀ (x : CompleteE) (i : Nat) (pl : List Sib3 × Hash),
    ops2.witnessC x i = some pl → rootFromPath ops2.g i pl.1 pl.2 = ops2.hashC x :=
  fun x i pl hx => ctrWitness_root ops1.witnessC ops1.hashC 8 hw1C x i pl hx

/-- A witness produced by the eternity's inner tier recomputes the eternity
root at height 24. -/
theorem eternityWitness_root (e : Eternity) (p : Nat) (pl : List Sib3 × Hash)
    (hx : Tier.witness ops2 e.inner p = some pl) :
    rootFromPath 24 p pl.1 pl.2 = e.root :=
  tierWitness_root ops2 hw2I hw2C e.inner p pl hx

/-- Reassembled children with at least the invariant on each slot yield a
valid slot. -/
theorem validWith_fromChildrenOrElseHash (vγ : γ → Bool) (g : Nat) {h : Nat}
    (a b c d : Insert (CTr γ h))
    (ha : a.validWith (CTr.validb vγ) = true)
    (hb : b.validWith (CTr.validb vγ) = true)
    (hc : c.validWith (CTr.validb vγ) = true)
    (hd : d.validWith (CTr.validb vγ) = true) :
    (fromChildrenOrElseHash g a b c d).validWith (CTr.validb vγ) = true := by
  cases a <;> cases b <;> cases c <;> cases d <;>
    simp_all [fromChildrenOrElseHash, CTr.validb, Insert.validWith, Insert.isKeep]

/-- When reassembly yields a kept node, that node has at least one kept
child. -/
theorem topHasKeep_fromChildrenOrElseHash (g : Nat) {h : Nat}
    (a b c d : Insert (CTr γ h)) (n : CTr γ (h + 1))
    (hx : fromChildrenOrElseHash g a b c d = .keep n) :
    CTr.topHasKeep n = true := by
  cases a <;> cases b <;> cases c <;> cases d <;>
    first
      | (cases hx; rfl)
      | simp [fromChildrenOrElseHash] at hx

/-- `forget_owned` preserves the complete-tree invariant, provided the leaf
forgetter does. -/
theorem forgetOwned_validb (vγ : γ → Bool) (fγ : γ → Nat → Insert γ × Bool)
    (g : Nat) (hfv : ∀ x i, vγ x = true → ((fγ x i).1).validWith vγ = true) :
    ∀ {h : Nat} (t : CTr γ h) (i : Nat), CTr.validb vγ t = true →
      ((CTr.forgetOwned fγ g t i).1).validWith (CTr.validb vγ) = true := by
  intro h
  induction h with
  | zero =>
      intro t i hv
      have h2 := hfv t i hv
      cases hr : fγ t i with
      | mk ins fl =>
          rw [hr] at h2
          cases ins with
          | keep y =>
              simp only [CTr.forgetOwned, hr]
              simpa [Insert.validWith, CTr.validb] using h2
          | hash z =>
              simp only [CTr.forgetOwned, hr]
              rfl
  | succ h ih =>
      intro t i hv
      obtain ⟨a, b, c, d⟩ := t
      simp only [CTr.validb, Bool.and_eq_true] at hv
      obtain ⟨⟨⟨⟨hk, hva⟩, hvb⟩, hvc⟩, hvd⟩ := hv
      rcases hbr : i / 4 ^ (g + h) % 4 with (_ | (_ | (_ | n)))
      · cases a with
        | keep t2 =>
            simp only [CTr.forgetOwned, hbr]
            exact validWith_fromChildrenOrElseHash vγ g _ b c d
              (ih t2 _ (by simpa [Insert.validWith] using hva)) hvb hvc hvd
        | hash x =>
            simp only [CTr.forgetOwned, hbr]
            exact validWith_fromChildrenOrElseHash vγ g _ b c d rfl hvb hvc hvd
      · cases b with
        | keep t2 =>
            simp only [CTr.forgetOwned, hbr]
            exact validWith_fromChildrenOrElseHash vγ g a _ c d hva
              (ih t2 _ (by simpa [Insert.validWith] using hvb)) hvc hvd
        | hash x =>
            simp only [CTr.forgetOwned, hbr]
            exact validWith_fromChildrenOrElseHash vγ g a _ c d hva rfl hvc hvd
      · cases c with
        | keep t2 =>
            simp only [CTr.forgetOwned, hbr]
            exact validWith_fromChildrenOrElseHash vγ g a b _ d hva hvb
              (ih t2 _ (by simpa [Insert.validWith] using hvc)) hvd
        | hash x =>
            simp only [CTr.forgetOwned, hbr]
            exact validWith_fromChildrenOrElseHash vγ g a b _ d hva hvb rfl hvd
      · cases d with
        | keep t2 =>
            simp only [CTr.forgetOwned, hbr]
            exact validWith_fromChildrenOrElseHash vγ g a b c _ hva hvb hvc
              (ih t2 _ (by simpa [Insert.validWith] using hvd))
        | hash x =>
            simp only [CTr.forgetOwned, hbr]
            exact validWith_fromChildrenOrElseHash vγ g a b c _ hva hvb hvc rfl

/-- A fresh singleton spine is valid when its leaf is. -/
theorem singleton_validb (vβ : β → Bool) (vγ : γ → Bool) (x : β)
    (hx : vβ x = true) :
    ∀ (h : Nat), ATr.validb vβ vγ (ATr.singleton x h : ATr β γ h) = true := by
  intro h
  induction h with
  | zero => exact hx
  | succ h ih => simpa [ATr.singleton, ATr.validb, threeAll] using ih

/-- Pushing into a sibling buffer preserves elementwise validity, on both
outcomes. -/
theorem threeAll_push (v : α → Bool) (s : Three α) (x : α)
    (hs : threeAll v s = true) (hx : v x = true) :
    (∀ s2, s.push x = .inl s2 → threeAll v s2 = true) ∧
    (∀ a b c d, s.push x = .inr (a, b, c, d) →
      v a = true ∧ v b = true ∧ v c = true ∧ v d = true) := by
  cases s with
  | zero =>
      exact ⟨fun s2 h2 => by cases h2; simpa [threeAll] using hx,
        fun a b c d h2 => by simp [Three.push] at h2⟩
  | one a0 =>
      refine ⟨fun s2 h2 => ?_, fun a b c d h2 => by simp [Three.push] at h2⟩
      cases h2
      simp only [threeAll] at hs ⊢
      simp [hs, hx]
  | two a0 b0 =>
      refine ⟨fun s2 h2 => ?_, fun a b c d h2 => by simp [Three.push] at h2⟩
      cases h2
      simp only [threeAll, Bool.and_eq_true] at hs ⊢
      exact ⟨hs, hx⟩
  | three a0 b0 c0 =>
      refine ⟨fun s2 h2 => by simp [Three.push] at h2, fun a b c d h2 => ?_⟩
      cases h2
      simp only [threeAll, Bool.and_eq_true] at hs
      exact ⟨hs.1.1, hs.1.2, hs.2, hx⟩

/-- Promoting siblings and focus preserves validity of the resulting slot. -/
theorem validWith_fromSiblingsAndFocusOrElseHash (vγ : γ → Bool) (g : Nat)
    {h : Nat} (sibs : Three (Insert (CTr γ h))) (focus : Insert (CTr γ h))
    (hs : threeAll (Insert.validWith (CTr.validb vγ)) sibs = true)
    (hf : focus.validWith (CTr.validb vγ) = true) :
    (fromSiblingsAndFocusOrElseHash g sibs focus).validWith (CTr.validb vγ) = true := by
  cases sibs with
  | zero =>
      simp only [fromSiblingsAndFocusOrElseHash, Three.push]
      exact validWith_fromChildrenOrElseHash vγ g _ _ _ _ hf rfl rfl rfl
  | one a =>
      simp only [fromSiblingsAndFocusOrElseHash, Three.push]
      simp only [threeAll] at hs
      exact validWith_fromChildrenOrElseHash vγ g _ _ _ _ hs hf rfl rfl
  | two a b =>
      simp only [fromSiblingsAndFocusOrElseHash, Three.push]
      simp only [threeAll, Bool.and_eq_true] at hs
      exact validWith_fromChildrenOrElseHash vγ g _ _ _ _ hs.1 hs.2 hf rfl
  | three a b c =>
      simp only [fromSiblingsAndFocusOrElseHash, Three.push]
      simp only [threeAll, Bool.and_eq_true] at hs
      exact validWith_fromChildrenOrElseHash vγ g _ _ _ _ hs.1.1 hs.1.2 hs.2 hf

/-- Finalizing a valid active tree yields a valid completed slot. -/
theorem atrFinalize_validb (finβ : β → Insert γ) (g : Nat) (vβ : β → Bool)
    (vγ : γ → Bool) (hfin : ∀ y, vβ y = true → (finβ y).validWith vγ = true) :
    ∀ {h : Nat} (t : ATr β γ h), ATr.validb vβ vγ t = true →
      (ATr.finalize finβ g t).validWith (CTr.validb vγ) = true := by
  intro h
  induction h with
  | zero => exact fun t ht => hfin t ht
  | succ h ih =>
      intro t ht
      obtain ⟨sibs, focus⟩ := t
      simp only [ATr.validb, Bool.and_eq_true] at ht
      exact validWith_fromSiblingsAndFocusOrElseHash vγ g sibs _ ht.1 (ih focus ht.2)

/-- Inserting into a valid active tree yields a valid tree, and on `Full` a
valid completed slot together with the unconsumed item. -/
theorem atrInsert_validb (finβ : β → Insert γ) (g : Nat) (vβ : β → Bool)
    (vγ : γ → Bool) (hfin : ∀ y, vβ y = true → (finβ y).validWith vγ = true) :
    ∀ {h : Nat} (t : ATr β γ h) (x : β), ATr.validb vβ vγ t = true →
      vβ x = true →
      (∀ t2, ATr.insert finβ g t x = .inl t2 → ATr.validb vβ vγ t2 = true) ∧
      (∀ comp item, ATr.insert finβ g t x = .inr (comp, item) →
        comp.validWith (CTr.validb vγ) = true ∧ item = x) := by
  intro h
  induction h with
  | zero =>
      intro t x ht hx
      refine ⟨fun t2 h2 => by simp [ATr.insert] at h2, fun comp item h2 => ?_⟩
      simp only [ATr.insert] at h2
      cases h2
      exact ⟨hfin t ht, rfl⟩
  | succ h ih =>
      intro t x ht hx
      obtain ⟨sibs, focus⟩ := t
      simp only [ATr.validb, Bool.and_eq_true] at ht
      obtain ⟨hs, hf⟩ := ht
      cases hrec : ATr.insert finβ g focus x with
      | inl f2 =>
          refine ⟨fun t2 h2 => ?_, fun comp item h2 => ?_⟩
          · simp only [ATr.insert, hrec] at h2
            cases h2
            simp only [ATr.validb, Bool.and_eq_true]
            exact ⟨hs, (ih focus x hf hx).1 f2 hrec⟩
          · simp only [ATr.insert, hrec] at h2
            simp at h2
      | inr pr =>
          obtain ⟨comp0, item0⟩ := pr
          have hcomp := (ih focus x hf hx).2 comp0 item0 hrec
          obtain ⟨hcompv, hitem⟩ := hcomp
          cases hpush : sibs.push comp0 with
          | inl sibs2 =>
              refine ⟨fun t2 h2 => ?_, fun comp item h2 => ?_⟩
              · simp only [ATr.insert, hrec, hpush] at h2
                cases h2
                simp only [ATr.validb, Bool.and_eq_true]
                exact ⟨(threeAll_push _ sibs comp0 hs hcompv).1 sibs2 hpush,
                  singleton_validb vβ vγ item0 (by rw [hitem]; exact hx) h⟩
              · simp only [ATr.insert, hrec, hpush] at h2
                simp at h2
          | inr quad =>
              obtain ⟨qa, qb, qc, qd⟩ := quad
              have hq := (threeAll_push _ sibs comp0 hs hcompv).2 qa qb qc qd hpush
              refine ⟨fun t2 h2 => ?_, fun comp item h2 => ?_⟩
              · simp only [ATr.insert, hrec, hpush] at h2
                simp at h2
              · simp only [ATr.insert, hrec, hpush] at h2
                cases h2
                exact ⟨validWith_fromChildrenOrElseHash vγ g qa qb qc qd
                  hq.1 hq.2.1 hq.2.2.1 hq.2.2.2, hitem⟩

/-- `Tier::insert` preserves tier validity. -/
theorem tierInsert_validb (o : Ops ι γ) (vι : ι → Bool) (vγ : γ → Bool)
    (hfin : ∀ (y : Insert ι), y.validWith vι = true →
      (o.finB y).validWith vγ = true)
    (t : Tier ι γ) (x : Insert ι) (ht : Tier.validb vι vγ t = true)
    (hx : x.validWith vι = true) :
    Tier.validb vι vγ (Tier.insert o t x).1 = true := by
  obtain ⟨l, w, inn⟩ := t
  cases inn with
  | active a =>
      cases a with
      | none =>
          simpa [Tier.insert, Tier.validb] using
            singleton_validb (Insert.validWith vι) vγ x hx 8
      | some tr =>
          have hv : ATr.validb (Insert.validWith vι) vγ tr = true := by
            simpa [Tier.validb] using ht
          have hrec := atrInsert_validb o.finB o.g (Insert.validWith vι) vγ hfin tr x hv hx
          cases hr : ATr.insert o.finB o.g tr x with
          | inl a2 => simpa [Tier.insert, hr, Tier.validb] using hrec.1 a2 hr
          | inr pr =>
              obtain ⟨comp, item⟩ := pr
              have hc := (hrec.2 comp item hr).1
              cases comp with
              | keep cc =>
                  simpa [Tier.insert, hr, Tier.validb, Insert.validWith] using hc
              | hash xx => simp [Tier.insert, hr, Tier.validb]
  | complete cc => simpa [Tier.insert, Tier.validb] using ht
  | hash x2 => simp [Tier.insert, Tier.validb]

/-- Forgetting in one sibling slot preserves its validity. -/
theorem siblingForget_validWith (vγ : γ → Bool) (fγ : γ → Nat → Insert γ × Bool)
    (g : Nat) (hfv : ∀ x i, vγ x = true → ((fγ x i).1).validWith vγ = true)
    {h : Nat} (s : Insert (CTr γ h)) (rest : Nat)
    (hs : s.validWith (CTr.validb vγ) = true) :
    ((siblingForget fγ g rest s).1).validWith (CTr.validb vγ) = true := by
  cases s with
  | keep t =>
      exact forgetOwned_validb vγ fγ g hfv t rest
        (by simpa [Insert.validWith] using hs)
  | hash x => rfl

/-- Forgetting on the active frontier preserves validity. -/
theorem atrForget_validb (vβ : β → Bool) (vγ : γ → Bool)
    (fβ : β → Nat → β × Bool) (fγ : γ → Nat → Insert γ × Bool) (g : Nat)
    (hfβv : ∀ y i, vβ y = true → vβ (fβ y i).1 = true)
    (hfγv : ∀ x i, vγ x = true → ((fγ x i).1).validWith vγ = true) :
    ∀ {h : Nat} (t : ATr β γ h) (i : Nat), ATr.validb vβ vγ t = true →
      ATr.validb vβ vγ (ATr.forget fβ fγ g t i).1 = true := by
  intro h
  induction h with
  | zero => intro t i ht; simpa [ATr.forget, ATr.validb] using hfβv t i ht
  | succ h ih =>
      intro t i ht
      obtain ⟨sibs, focus⟩ := t
      simp only [ATr.validb, Bool.and_eq_true] at ht
      obtain ⟨hs, hf⟩ := ht
      rcases hbr : i / 4 ^ (g + h) % 4 with (_ | (_ | (_ | n)))
      · cases sibs with
        | zero =>
            simp only [ATr.forget, hbr, ATr.validb, threeAll, Bool.and_eq_true]
            exact ⟨trivial, ih focus _ hf⟩
        | one a =>
            simp only [threeAll] at hs
            simp only [ATr.forget, hbr, ATr.validb, threeAll, Bool.and_eq_true]
            exact ⟨siblingForget_validWith vγ fγ g hfγv a _ hs, hf⟩
        | two a b =>
            simp only [threeAll, Bool.and_eq_true] at hs
            simp only [ATr.forget, hbr, ATr.validb, threeAll, Bool.and_eq_true]
            exact ⟨⟨siblingForget_validWith vγ fγ g hfγv a _ hs.1, hs.2⟩, hf⟩
        | three a b c =>
            simp only [threeAll, Bool.and_eq_true] at hs
            simp only [ATr.forget, hbr, ATr.validb, threeAll, Bool.and_eq_true]
            exact ⟨⟨⟨siblingForget_validWith vγ fγ g hfγv a _ hs.1.1, hs.1.2⟩,
              hs.2⟩, hf⟩
      · cases sibs with
        | zero =>
            simp only [ATr.forget, hbr, ATr.validb, threeAll, Bool.and_eq_true]
            exact ⟨trivial, hf⟩
        | one a =>
            simp only [threeAll] at hs
            simp only [ATr.forget, hbr, ATr.validb, threeAll, Bool.and_eq_true]
            exact ⟨hs, ih focus _ hf⟩
        | two a b =>
            simp only [threeAll, Bool.and_eq_true] at hs
            simp only [ATr.forget, hbr, ATr.validb, threeAll, Bool.and_eq_true]
            exact ⟨⟨hs.1, siblingForget_validWith vγ fγ g hfγv b _ hs.2⟩, hf⟩
        | three a b c =>
            simp only [threeAll, Bool.and_eq_true] at hs
            simp only [ATr.forget, hbr, ATr.validb, threeAll, Bool.and_eq_true]
            exact ⟨⟨⟨hs.1.1, siblingForget_validWith vγ fγ g hfγv b _ hs.1.2⟩,
              hs.2⟩, hf⟩
      · cases sibs with
        | zero =>
            simp only [ATr.forget, hbr, ATr.validb, threeAll, Bool.and_eq_true]
            exact ⟨trivial, hf⟩
        | one a =>
            simp only [threeAll] at hs
            simp only [ATr.forget, hbr, ATr.validb, threeAll, Bool.and_eq_true]
            exact ⟨hs, hf⟩
        | two a b =>
            simp only [threeAll, Bool.and_eq_true] at hs
            simp only [ATr.forget, hbr, ATr.validb, threeAll, Bool.and_eq_true]
            exact ⟨hs, ih focus _ hf⟩
        | three a b c =>
            simp only [threeAll, Bool.and_eq_true] at hs
            simp only [ATr.forget, hbr, ATr.validb, threeAll, Bool.and_eq_true]
            exact ⟨⟨⟨hs.1.1, hs.1.2⟩,
              siblingForget_validWith vγ fγ g hfγv c _ hs.2⟩, hf⟩
      · cases sibs with
        | zero =>
            simp only [ATr.forget, hbr, ATr.validb, threeAll, Bool.and_eq_true]
            exact ⟨trivial, hf⟩
        | one a =>
            simp only [threeAll] at hs
            simp only [ATr.forget, hbr, ATr.validb, threeAll, Bool.and_eq_true]
            exact ⟨hs, hf⟩
        | two a b =>
            simp only [threeAll, Bool.and_eq_true] at hs
            simp only [ATr.forget, hbr, ATr.validb, threeAll, Bool.and_eq_true]
            exact ⟨hs, hf⟩
        | three a b c =>
            simp only [threeAll, Bool.and_eq_true] at hs
            simp only [ATr.forget, hbr, ATr.validb, threeAll, Bool.and_eq_true]
            exact ⟨hs, ih focus _ hf⟩

/-- `Forget for Tier` preserves tier validity. -/
theorem tierForget_validb (o : Ops ι γ) (vι : ι → Bool) (vγ : γ → Bool)
    (hfvI : ∀ x i, vι x = true → ((o.forgetI x i).1).validWith vι = true)
    (hfvC : ∀ x i, vγ x = true → ((o.forgetC x i).1).validWith vγ = true)
    (t : Tier ι γ) (i : Nat) (ht : Tier.validb vι vγ t = true) :
    Tier.validb vι vγ (Tier.forget o t i).1 = true := by
  obtain ⟨l, w, inn⟩ := t
  cases inn with
  | active a =>
      cases a with
      | none => exact ht
      | some tr =>
          have hfβv : ∀ (y : Insert ι) (j : Nat), Insert.validWith vι y = true →
              Insert.validWith vι (o.forgetB y j).1 = true := by
            intro y j hy
            cases y with
            | keep x => exact hfvI x j hy
            | hash z => rfl
          simpa [Tier.forget, Tier.validb] using
            atrForget_validb (Insert.validWith vι) vγ o.forgetB o.forgetC o.g
              hfβv hfvC tr i (by simpa [Tier.validb] using ht)
  | complete cc =>
      have h2 := forgetOwned_validb vγ o.forgetC o.g hfvC cc i
        (by simpa [Tier.validb] using ht)
      cases hr : CTr.forgetOwned o.forgetC o.g cc i with
      | mk ins fl =>
          rw [hr] at h2
          cases ins with
          | keep c2 =>
              simpa [Tier.forget, hr, Tier.validb, Insert.validWith] using h2
          | hash x => simp [Tier.forget, hr, Tier.validb]
  | hash x => exact ht

/-- Item-level validity stability of forgetting, block level. -/
theorem hfv0I : ∀ (x : Commitment) (i : Nat), (fun (_ : Commitment) => true) x = true →
    ((ops0.forgetI x i).1).validWith (fun _ => true) = true :=
  fun _ _ _ => rfl

/-- Complete-leaf validity stability of forgetting, block level. -/
theorem hfv0C : ∀ (x : Commitment) (i : Nat), (fun (_ : Commitment) => true) x = true →
    ((ops0.forgetC x i).1).validWith (fun _ => true) = true :=
  fun _ _ _ => rfl

/-- Block-tier forget preserves block validity. -/
theorem tierForget_validb0 (t : TierB) (i : Nat) (ht : vTierB t = true) :
    vTierB (Tier.forget ops0 t i).1 = true :=
  tierForget_validb ops0 (fun _ => true) (fun _ => true) hfv0I hfv0C t i ht

/-- Item-level validity stability of forgetting, epoch level. -/
theorem hfv1I : ∀ (t : TierB) (i : Nat), vTierB t = true →
    ((ops1.forgetI t i).1).validWith vTierB = true := by
  intro t i ht
  simpa [ops1, Insert.validWith] using tierForget_validb0 t i ht

/-- Complete-leaf validity stability of forgetting, epoch level. -/
theorem hfv1C : ∀ (x : CompleteB) (i : Nat), vCompleteB x = true →
    ((ops1.forgetC x i).1).validWith vCompleteB = true :=
  fun x i hx => forgetOwned_validb (fun _ => true) ops0.forgetC 0 hfv0C x i hx

/-- Epoch-tier forget preserves epoch validity. -/
theorem tierForget_validb1 (t : TierE) (i : Nat) (ht : vTierE t = true) :
    vTierE (Tier.forget ops1 t i).1 = true :=
  tierForget_validb ops1 vTierB vCompleteB hfv1I hfv1C t i ht

/-- Item-level validity stability of forgetting, eternity level. -/
theorem hfv2I : ∀ (t : TierE) (i : Nat), vTierE t = true →
    ((ops2.forgetI t i).1).validWith vTierE = true := by
  intro t i ht
  simpa [ops2, Insert.validWith] using tierForget_validb1 t i ht

/-- Complete-leaf validity stability of forgetting, eternity level. -/
theorem hfv2C : ∀ (x : CompleteE) (i : Nat), vCompleteE x = true →
    ((ops2.forgetC x i).1).validWith vCompleteE = true :=
  fun x i hx => forgetOwned_validb vCompleteB ops1.forgetC 8 hfv1C x i hx

/-- Finalizing a block-level item slot preserves validity. -/
theorem hfin0 : ∀ (y : Insert Commitment),
    y.validWith (fun _ => true) = true →
    (ops0.finB y).validWith (fun _ => true) = true := by
  intro y _
  cases y <;> rfl

/-! ## Claim theorems (first group) -/

/-- C1: for every eternity and commitment, the root hash is unchanged by
`forget`, whether or not the commitment was witnessed; in particular
`forget_owned` on a complete node (here at the eternity level) reassembles or
collapses the children so that the recomputed hash is identical
(complete/node.rs, lines 136–193; eternity.rs, lines 184–200). -/
theorem C1_root_stable_forget (e : Eternity) (c : Commitment) :
    ((e.forget c).1).root = e.root ∧
    ∀ (t : CompleteE) (i : Nat),
      Insert.hashWith ops2.hashC (ops2.forgetC t i).1 = ops2.hashC t := by
  constructor
  · cases hl : elookup e.index c with
    | none => simp [Eternity.forget, hl]
    | some p =>
        simpa [Eternity.forget, hl, Eternity.root] using tierForget_hash2 e.inner p
  · exact fun t i => hfC2 t i

/-- C2: under index consistency (every indexed entry is witnessed in the tree
with the commitment's leaf hash — the invariant of §3), `witness` returns
`None` iff the commitment is absent from the index, and any returned proof
carries the indexed position and verifies against the eternity root
(eternity.rs, lines 159–178; complete/node.rs, lines 113–134). -/
theorem C2_witness_soundness (e : Eternity)
    (hWF : ∀ cp ∈ e.index, witOkb e cp = true) (c : Commitment) :
    (e.witness c = none ↔ elookup e.index c = none) ∧
    (∀ pf, e.witness c = some pf →
      elookup e.index c = some pf.position ∧ pf.verify e.root = true) := by
  cases hl : elookup e.index c with
  | none =>
      refine ⟨by simp [Eternity.witness, hl], ?_⟩
      intro pf hpf
      simp [Eternity.witness, hl] at hpf
  | some p =>
      have hok := hWF (c, p) (elookup_mem hl)
      cases hw : Tier.witness ops2 e.inner p with
      | none => simp [witOkb, hw] at hok
      | some pl =>
          have hleaf : pl.2 = Hash.ofItem c := by
            simp [witOkb, hw] at hok
            exact hok
          have hroot := eternityWitness_root e p pl hw
          refine ⟨by simp [Eternity.witness, hl, hw], ?_⟩
          intro pf hpf
          simp only [Eternity.witness, hl, hw] at hpf
          cases hpf
          refine ⟨rfl, ?_⟩
          simp only [Proof.verify]
          rw [← hleaf, hroot]
          simp

/-- Witness for C2 at the concrete singleton eternity `eSample`. -/
theorem C2_witness_soundness_witness :
    (∀ cp ∈ eSample.index, witOkb eSample cp = true) ∧
    ((eSample.witness 5 = none ↔ elookup eSample.index 5 = none) ∧
      (∀ pf, eSample.witness 5 = some pf →
        elookup eSample.index 5 = some pf.position ∧
        pf.verify eSample.root = true)) :=
  ⟨by decide, C2_witness_soundness eSample (by decide) 5⟩

/-- C3 (counterexample): the root of the freshly constructed empty `Eternity`
is not `Hash::node(24, default, default, default, default)` — the empty active
tier hashes to `Hash::default()` (active/tier.rs, lines 202–228, via
eternity.rs `root`). -/
theorem C3_counterexample :
    Eternity.new.root ≠
      Hash.node 24 Hash.default Hash.default Hash.default Hash.default := by
  decide

/-- C3 (amended): for the freshly constructed empty `Eternity`, `position()` is
0, `witness` of any commitment is `None`, and `root()` equals
`Hash::default()` (the hash of the empty active tier). -/
theorem C3_empty_eternity :
    Eternity.new.position = 0 ∧
    (∀ c : Commitment, Eternity.new.witness c = none) ∧
    Eternity.new.root = Hash.default :=
  ⟨rfl, fun _ => rfl, rfl⟩

/-- C4 (code evaluation): `Tier::insert` succeeds on a fresh tier yet leaves
`len = 0` and `witnessed = 0`, and in general never modifies either counter,
contradicting the documented meaning of `len()`/`size()` (active/tier.rs,
lines 176–186) and the claim. -/
theorem C4_len_never_incremented :
    (Tier.insert ops0 Tier.new (.keep 5)).2 = none ∧
    ((Tier.insert ops0 Tier.new (.keep 5)).1).len = 0 ∧
    ((Tier.insert ops0 Tier.new (.keep 5)).1).witnessed = 0 ∧
    ∀ (t : TierB) (x : Insert Commitment),
      ((Tier.insert ops0 t x).1).len = t.len ∧
      ((Tier.insert ops0 t x).1).witnessed = t.witnessed := by
  refine ⟨rfl, rfl, rfl, ?_⟩
  intro t x
  obtain ⟨l, w, inn⟩ := t
  cases inn with
  | active a =>
      cases a with
      | none => exact ⟨rfl, rfl⟩
      | some tr =>
          cases h : ATr.insert ops0.finB ops0.g tr x with
          | inl a2 => simp [Tier.insert, h]
          | inr pr =>
              obtain ⟨comp, item⟩ := pr
              cases comp <;> simp [Tier.insert, h]
  | complete cc => exact ⟨rfl, rfl⟩
  | hash hh => exact ⟨rfl, rfl⟩

/-- C5: no complete node is all-`Hash`: `from_children_or_else_hash` collapses
an all-hash family to `Insert::Hash(Hash::node(h, a, b, c, d))`, any kept node
it constructs retains at least one kept child, and the at-least-one-`Keep`
invariant is preserved by forgetting (at the eternity level) and by insertion
(at the block level) (complete/node.rs, lines 68–82 and 136–193). -/
theorem C5_collapse_completeness :
    (∀ (g h : Nat) (w x y z : Hash),
        fromChildrenOrElseHash (γ := Commitment) g (h := h) (.hash w) (.hash x)
          (.hash y) (.hash z) = .hash (Hash.node (g + h + 1) w x y z)) ∧
    (∀ (g h : Nat) (a b c d : Insert (CTr Commitment h))
        (n : CTr Commitment (h + 1)),
        fromChildrenOrElseHash g a b c d = .keep n → CTr.topHasKeep n = true) ∧
    (∀ (t : TierT) (i : Nat), vTierT t = true →
        vTierT (Tier.forget ops2 t i).1 = true) ∧
    (∀ (t : TierB) (x : Insert Commitment), vTierB t = true →
        vTierB (Tier.insert ops0 t x).1 = true) := by
  refine ⟨fun g h w x y z => rfl,
    fun g h a b c d n hx => topHasKeep_fromChildrenOrElseHash g a b c d n hx,
    fun t i ht => tierForget_validb ops2 vTierE vCompleteE hfv2I hfv2C t i ht,
    fun t x ht => ?_⟩
  have hx : x.validWith (fun _ => true) = true := by cases x <;> rfl
  exact tierInsert_validb ops0 (fun _ => true) (fun _ => true) hfin0 t x ht hx

/-- Witness for C5 at concrete valid tiers. -/
theorem C5_collapse_completeness_witness :
    (vTierT eternT = true ∧ vTierT (Tier.forget ops2 eternT 0).1 = true) ∧
    (vTierB blockT = true ∧
      vTierB (Tier.insert ops0 blockT (.hash Hash.default)).1 = true) :=
  ⟨⟨by decide, C5_collapse_completeness.2.2.1 eternT 0 (by decide)⟩,
   ⟨by decide, C5_collapse_completeness.2.2.2 blockT (.hash Hash.default) (by decide)⟩⟩

/-- C6: a tier whose inner state is `Complete` or `Hash` returns exactly the
unconsumed input item as the `Err` payload, and the tier is unchanged
(active/tier.rs, lines 119–123). -/
theorem C6_terminal_tier_refuses (t : TierB) (x : Insert Commitment)
    (h : t.inner.isTerminal = true) : Tier.insert ops0 t x = (t, some x) := by
  obtain ⟨l, w, inn⟩ := t
  cases inn with
  | active a => simp [Inner.isTerminal] at h
  | complete cc => rfl
  | hash hh => rfl

/-- Witness for C6 at a concrete hash-state tier. -/
theorem C6_terminal_tier_refuses_witness :
    tHashState.inner.isTerminal = true ∧
    Tier.insert ops0 tHashState (.keep 3) = (tHashState, some (.keep 3)) :=
  ⟨rfl, C6_terminal_tier_refuses tHashState (.keep 3) rfl⟩

/-- C7: `forget` returns `true` iff the commitment was indexed before the call;
afterwards the commitment is absent from the index, and an immediate second
`forget` returns `false` and leaves the eternity (tree and index) unchanged
(eternity.rs, lines 184–200). -/
theorem C7_idempotent_forget (e : Eternity) (c : Commitment) :
    ((e.forget c).2 = true ↔ elookup e.index c ≠ none) ∧
    elookup ((e.forget c).1).index c = none ∧
    ((e.forget c).1).forget c = ((e.forget c).1, false) := by
  cases hl : elookup e.index c with
  | none =>
      refine ⟨by simp [Eternity.forget, hl], by simp [Eternity.forget, hl], ?_⟩
      simp [Eternity.forget, hl]
  | some p =>
      refine ⟨by simp [Eternity.forget, hl],
        by simp [Eternity.forget, hl, elookup_eremove_self], ?_⟩
      simp [Eternity.forget, hl, elookup_eremove_self]

/-- C8: heterogeneous tier equality (active/tier.rs, lines 44–102): an empty
active tier never equals a complete tier (under both `PartialEq` impls); a
hash-state tier equals only another hash with the same value and never an
active or complete tier; an occupied active tier equals a complete tier
exactly when the trees are recursively equal level by level. -/
theorem C8_heterogeneous_equality :
    (∀ (l w : Nat) (c : CompleteB),
        Tier.eqComplete heqB eqCB ⟨l, w, .active none⟩ c = false) ∧
    (∀ (l w : Nat) (x : Hash) (c : CompleteB),
        Tier.eqComplete heqB eqCB ⟨l, w, .hash x⟩ c = false) ∧
    (∀ (c : CompleteB),
        innerBeqB (.active none) (.complete c) = false ∧
        innerBeqB (.complete c) (.active none) = false) ∧
    (∀ (x y : Hash), innerBeqB (.hash x) (.hash y) = (x == y)) ∧
    (∀ (x : Hash) (a : Option (ATr (Insert Commitment) Commitment 8)),
        innerBeqB (.hash x) (.active a) = false ∧
        innerBeqB (.active a) (.hash x) = false) ∧
    (∀ (x : Hash) (c : CompleteB),
        innerBeqB (.hash x) (.complete c) = false ∧
        innerBeqB (.complete c) (.hash x) = false) ∧
    (∀ (l w : Nat) (a : ATr (Insert Commitment) Commitment 8) (c : CompleteB),
        Tier.eqComplete heqB eqCB ⟨l, w, .active (some a)⟩ c = heqB a c) :=
  ⟨fun _ _ _ => rfl, fun _ _ _ _ => rfl, fun _ => ⟨rfl, rfl⟩, fun _ _ => rfl,
    fun _ _ => ⟨rfl, rfl⟩, fun _ _ => ⟨rfl, rfl⟩, fun _ _ _ _ => rfl⟩

/-- C9: the plain `u64` multiplications in `RateData::next_rates` overflow for
large inputs: at `rBig`/`baseUnit` both the exchange-rate product and the
voting-power product exceed `u64::MAX`, and the wrapping computation differs
from the exact one (rate.rs, lines 30–65). -/
theorem C9_rate_overflow :
    rBig.validatorExchangeRate * (rBig.validatorRewardRate + 100000000) >
        2 ^ 64 - 1 ∧
    rBig.votingPower *
        (((RateData.nextRatesExact rBig baseUnit []).validatorExchangeRate *
            100000000) / baseUnit.baseExchangeRate) > 2 ^ 64 - 1 ∧
    RateData.nextRates rBig baseUnit [] ≠ RateData.nextRatesExact rBig baseUnit [] := by
  decide

/-- C10: inserting into an active tier whose nested subtree is full returns
`Err` with the unconsumed item, yet mutates the tier: the inner state leaves
`Active`, becoming `Hash` when no witness was kept and `Complete` when one was
(active/tier.rs, lines 130–148). -/
theorem C10_insert_full_mutates :
    tFullHash.inner.isActiveSome = true ∧
    (Tier.insert ops0 tFullHash (.keep 9)).2 = some (.keep 9) ∧
    ((Tier.insert ops0 tFullHash (.keep 9)).1).inner.isHashState = true ∧
    tFullKeep.inner.isActiveSome = true ∧
    (Tier.insert ops0 tFullKeep (.keep 9)).2 = some (.keep 9) ∧
    ((Tier.insert ops0 tFullKeep (.keep 9)).1).inner.isCompleteState = true := by
  decide

end TCT
